import Mathlib

/-!
Shallow embedding of the `thunderdome` generational slot arena
(`src/arena.rs`, `src/free_pointer.rs`), together with theorems settling
the frozen claims about it.

Machine integers are modelled by `Nat`; the `u32` bounds that the code
enforces through checked arithmetic appear as explicit guards or
hypotheses.  Fallible code (including the unreachable-state aborts inside
`Arena::insert`) returns `Option`; operations that mutate in place are
state-passing functions returning the new arena.
-/

namespace Thunderdome

/-- Number of values of a `u32`; slots and generations are stored in 32 bits. -/
def u32Size : Nat := 4294967296

/-- Number of values of a `u64`; `Index::to_bits` produces a 64-bit value. -/
def u64Size : Nat := 18446744073709551616

/-- Modelled from the spec: `generation.rs` is not under `src/`.  The spec
says a generation is an unsigned integer, strictly positive (zero is an
invalid sentinel), with a `first` value and a `next` step advancing it by a
fixed step.  It is modelled as a natural number, `first` being `1` and
`next` adding one. -/
abbrev Generation := Nat

/-- Modelled from the spec: the first (smallest) generation, attached to a
freshly appended slot. -/
def Generation.first : Generation := 1

/-- Modelled from the spec: advance the generation by one step. -/
def Generation.next (g : Generation) : Generation := g + 1

/-- Modelled from the spec: the raw 32-bit value of a generation.  The code
stores generations in 32 bits, so any generation the arena produces is
below `u32Size`. -/
def Generation.to_u32 (g : Generation) : Nat := g

/-- Modelled from the spec: decode a generation from a raw 32-bit value.
Zero is the invalid sentinel: decoding it fails loudly (a panic in the
code, `none` here). -/
def Generation.from_u32 (n : Nat) : Option Generation :=
  if n = 0 then none else some n

/-- Contains a reference to a free slot in an arena; the payload is the
`NonZeroUsize` stored by `free_pointer.rs` (slot plus one). -/
structure FreePointer where
  value : Nat
deriving DecidableEq

/-- From `free_pointer.rs`: `from_slot` stores `slot + 1` (the checked add
cannot overflow over `Nat`). -/
def FreePointer.from_slot (slot : Nat) : FreePointer := ⟨slot + 1⟩

/-- From `free_pointer.rs`: `slot` recovers the slot by subtracting one. -/
def FreePointer.slot (p : FreePointer) : Nat := p.value - 1

/-- Index type for `Arena` that has a generation attached to it
(`arena.rs`, `struct Index`). -/
structure Index where
  slot : Nat
  generation : Generation
deriving DecidableEq

/-- From `arena.rs`: pack an `Index` into a 64-bit value, generation in the
high 32 bits, slot in the low 32 bits. -/
def Index.to_bits (i : Index) : Nat :=
  (i.generation.to_u32 <<< 32) ||| i.slot

/-- From `arena.rs`: unpack a 64-bit value produced by `to_bits`.  The
casts to `u32` truncate modulo `2^32`; a zero generation field makes
`Generation::from_u32` fail (a panic in the code, `none` here). -/
def Index.from_bits (bits : Nat) : Option Index :=
  match Generation.from_u32 ((bits >>> 32) % u32Size) with
  | none => none
  | some g => some ⟨bits % u32Size, g⟩

/-- From `arena.rs`: an occupied slot entry, a generation plus the stored
value. -/
structure OccupiedEntry (T : Type) where
  generation : Generation
  value : T
deriving DecidableEq

/-- From `arena.rs`: an empty slot entry, the generation carried over from
its last occupant plus the optional next free slot. -/
structure EmptyEntry where
  generation : Generation
  next_free : Option FreePointer
deriving DecidableEq

/-- From `arena.rs`: a slot entry is either occupied or empty. -/
inductive Entry (T : Type) where
  | occupied (oc : OccupiedEntry T)
  | empty (em : EmptyEntry)
deriving DecidableEq

/-- From `arena.rs`: consume the entry, and if it is occupied, return the
value. -/
def Entry.into_value {T : Type} : Entry T → Option T
  | .occupied oc => some oc.value
  | .empty _ => none

/-- From `arena.rs`: if the entry is empty, return a copy of the emptiness
data. -/
def Entry.get_empty {T : Type} : Entry T → Option EmptyEntry
  | .empty em => some em
  | .occupied _ => none

/-- The generation currently attached to an entry, occupied or empty. -/
def Entry.gen {T : Type} : Entry T → Generation
  | .occupied oc => oc.generation
  | .empty em => em.generation

/-- From `arena.rs`: the arena is a growable sequence of entries, a live
count, and the head of the free list. -/
structure Arena (T : Type) where
  storage : List (Entry T)
  len : Nat
  first_free : Option FreePointer
deriving DecidableEq

/-- From `arena.rs`: `Arena::new`, the empty arena. -/
def Arena.new (T : Type) : Arena T := ⟨[], 0, none⟩

/-- From `arena.rs`: `Arena::insert`.  Returns `none` where the code
aborts: when the live count would exceed `u32::MAX`, when the free-list
head points past the end of storage or at an occupied entry (both
`unreachable!` in the code), or when storage would outgrow `u32`. -/
def Arena.insert {T : Type} (a : Arena T) (value : T) : Option (Arena T × Index) :=
  if a.len + 1 < u32Size then
    match a.first_free with
    | some fp =>
      match a.storage[fp.slot]? with
      | none => none
      | some entry =>
        match entry.get_empty with
        | none => none
        | some em =>
          some (⟨a.storage.set fp.slot (.occupied ⟨Generation.next em.generation, value⟩),
                 a.len + 1, em.next_free⟩,
                ⟨fp.slot, Generation.next em.generation⟩)
    | none =>
      if a.storage.length < u32Size then
        some (⟨a.storage ++ [.occupied ⟨Generation.first, value⟩], a.len + 1, none⟩,
              ⟨a.storage.length, Generation.first⟩)
      else none
  else none

/-- From `arena.rs`: `Arena::contains`. -/
def Arena.contains {T : Type} (a : Arena T) (index : Index) : Bool :=
  match a.storage[index.slot]? with
  | some (.occupied oc) => oc.generation = index.generation
  | _ => false

/-- From `arena.rs`: `Arena::get` (the referenced value, by copy). -/
def Arena.get {T : Type} (a : Arena T) (index : Index) : Option T :=
  match a.storage[index.slot]? with
  | some (.occupied oc) => if oc.generation = index.generation then some oc.value else none
  | _ => none

/-- From `arena.rs`: `Arena::get_mut` resolves exactly like `get`; the
value it exposes mutably is the same one `get` returns. -/
def Arena.get_mut {T : Type} (a : Arena T) (index : Index) : Option T :=
  match a.storage[index.slot]? with
  | some (.occupied oc) => if oc.generation = index.generation then some oc.value else none
  | _ => none

/-- From `arena.rs`: `Arena::get2_mut` panics (`none` here) when the two
indices are equal, and otherwise resolves each index exactly like
`get_mut`. -/
def Arena.get2_mut {T : Type} (a : Arena T) (index1 index2 : Index) :
    Option (Option T × Option T) :=
  if index1 = index2 then none
  else some (a.get_mut index1, a.get_mut index2)

/-- From `arena.rs`: `Arena::contains_slot`. -/
def Arena.contains_slot {T : Type} (a : Arena T) (slot : Nat) : Option Index :=
  match a.storage[slot]? with
  | some (.occupied oc) => some ⟨slot, oc.generation⟩
  | _ => none

/-- From `arena.rs`: `Arena::get_by_slot`. -/
def Arena.get_by_slot {T : Type} (a : Arena T) (slot : Nat) : Option (Index × T) :=
  match a.storage[slot]? with
  | some (.occupied oc) => some (⟨slot, oc.generation⟩, oc.value)
  | _ => none

/-- From `arena.rs`: `Arena::remove`.  The returned pair is the arena after
the call and the removed value, `none` when the index does not resolve (in
which case the arena is returned unchanged, as in the code). -/
def Arena.remove {T : Type} (a : Arena T) (index : Index) : Arena T × Option T :=
  match a.storage[index.slot]? with
  | some (.occupied oc) =>
    if oc.generation = index.generation then
      (⟨a.storage.set index.slot (.empty ⟨oc.generation, a.first_free⟩),
        a.len - 1, some (FreePointer.from_slot index.slot)⟩, some oc.value)
    else (a, none)
  | _ => (a, none)

/-- From `arena.rs`: `Arena::remove_by_slot`. -/
def Arena.remove_by_slot {T : Type} (a : Arena T) (slot : Nat) :
    Arena T × Option (Index × T) :=
  match a.storage[slot]? with
  | some (.occupied oc) =>
    (⟨a.storage.set slot (.empty ⟨oc.generation, a.first_free⟩),
      a.len - 1, some (FreePointer.from_slot slot)⟩, some (⟨slot, oc.generation⟩, oc.value))
  | _ => (a, none)

/-- From `arena.rs`: `Arena::invalidate`. -/
def Arena.invalidate {T : Type} (a : Arena T) (index : Index) : Arena T × Option Index :=
  match a.storage[index.slot]? with
  | some (.occupied oc) =>
    if oc.generation = index.generation then
      (⟨a.storage.set index.slot (.occupied ⟨oc.generation.next, oc.value⟩),
        a.len, a.first_free⟩, some ⟨index.slot, oc.generation.next⟩)
    else (a, none)
  | _ => (a, none)

/-- The number of occupied entries in a storage list. -/
def countOccupied {T : Type} : List (Entry T) → Nat
  | [] => 0
  | .occupied _ :: rest => countOccupied rest + 1
  | .empty _ :: rest => countOccupied rest

/-- The observable effect of writing a value through the mutable reference
`Arena::get_mut` hands out: the occupied entry at a valid index gets a new
value, anything else is a no-op (an invalid index yields no reference). -/
def Arena.writeAt {T : Type} (a : Arena T) (index : Index) (v : T) : Arena T :=
  match a.storage[index.slot]? with
  | some (.occupied oc) =>
    if oc.generation = index.generation then
      ⟨a.storage.set index.slot (.occupied ⟨oc.generation, v⟩), a.len, a.first_free⟩
    else a
  | _ => a

/-- One iteration of the `Arena::retain` loop at slot `i`: an occupied
entry is passed to the predicate (which may also rewrite the value through
its mutable reference); on `false` the entry undergoes the same transition
as removal.  Empty slots are skipped. -/
def Arena.retainStep {T : Type} (f : Index → T → Bool × T) (a : Arena T) (i : Nat) :
    Arena T :=
  match a.storage[i]? with
  | some (.occupied oc) =>
    if (f ⟨i, oc.generation⟩ oc.value).1 then
      ⟨a.storage.set i (.occupied ⟨oc.generation, (f ⟨i, oc.generation⟩ oc.value).2⟩),
        a.len, a.first_free⟩
    else
      ⟨a.storage.set i (.empty ⟨oc.generation, a.first_free⟩), a.len - 1,
        some (FreePointer.from_slot i)⟩
  | _ => a

/-- From `arena.rs`: `Arena::retain` visits every slot in ascending order;
each visit only rewrites the visited slot, so the loop is the fold of
`retainStep` over the slot range. -/
def Arena.retain {T : Type} (a : Arena T) (f : Index → T → Bool × T) : Arena T :=
  (List.range a.storage.length).foldl (Arena.retainStep f) a

/-- Modelled from the spec: `drain.rs` is not under `src/`.  The drain
iterator holds the arena and a slot cursor starting at `0` (the `Drain`
literal in `Arena::drain`); each `next` scans forward from the cursor and
removes the first occupied slot via the `remove_by_slot` transition,
yielding its former index and value.  The scan is written with explicit
fuel `a.storage.length - slot`, the number of slots left to inspect. -/
def Arena.drainStepAux {T : Type} : Arena T → Nat → Nat →
    Option ((Arena T × Nat) × Index × T)
  | _, _, 0 => none
  | a, slot, fuel + 1 =>
    match a.remove_by_slot slot with
    | (a', some iv) => some ((a', slot + 1), iv)
    | (_, none) => Arena.drainStepAux a (slot + 1) fuel

/-- Modelled from the spec: one `next` call of the drain iterator with
cursor `slot`. -/
def Arena.drainStep {T : Type} (a : Arena T) (slot : Nat) :
    Option ((Arena T × Nat) × Index × T) :=
  Arena.drainStepAux a slot (a.storage.length - slot)

/-- Modelled from the spec: consume up to `k` elements from the drain
iterator, returning the arena left behind, the final cursor, and the
yielded pairs; stopping short of exhaustion models abandoning the
iterator after `k` yields. -/
def Arena.drainTake {T : Type} : Arena T → Nat → Nat → Arena T × Nat × List (Index × T)
  | a, slot, 0 => (a, slot, [])
  | a, slot, k + 1 =>
    match a.drainStep slot with
    | none => (a, slot, [])
    | some ((a', slot'), iv) =>
      match Arena.drainTake a' slot' k with
      | (a'', slot'', ps) => (a'', slot'', iv :: ps)

/-- From `arena.rs`: `Arena::clear` drains the arena to exhaustion and
drops the yielded values; `storage.length` yields always suffice. -/
def Arena.clear {T : Type} (a : Arena T) : Arena T :=
  (a.drainTake 0 a.storage.length).1

/-- A public mutating operation on the arena, with the arguments that
determine its effect (for `get_mut`/`get2_mut`, the writes performed
through the returned references). -/
inductive Act (T : Type) where
  | insert (v : T)
  | getMutWrite (i : Index) (v : T)
  | get2MutWrite (i1 i2 : Index) (v1 v2 : T)
  | remove (i : Index)
  | removeBySlot (s : Nat)
  | invalidate (i : Index)
  | retain (f : Index → T → Bool × T)
  | clear
  | drain (k : Nat)

/-- Whether an operation may write the entry stored at slot `s` (used to
phrase what can disturb a live index: a conservative over-approximation
by the slot the operation addresses). -/
def Act.touchesSlot {T : Type} : Act T → Nat → Prop
  | .insert _, _ => False
  | .getMutWrite i _, s => i.slot = s
  | .get2MutWrite i1 i2 _ _, s => i1.slot = s ∨ i2.slot = s
  | .remove i, s => i.slot = s
  | .removeBySlot s', s => s' = s
  | .invalidate i, s => i.slot = s
  | .retain _, _ => True
  | .clear, _ => True
  | .drain _, _ => True

/-- Run one operation: `none` where the code faults (`insert` over
capacity or at a corrupt free list; `get2_mut` on identical indices). -/
def Arena.apply {T : Type} (a : Arena T) : Act T → Option (Arena T)
  | .insert v => (a.insert v).map Prod.fst
  | .getMutWrite i v => some (a.writeAt i v)
  | .get2MutWrite i1 i2 v1 v2 =>
    if i1 = i2 then none else some ((a.writeAt i1 v1).writeAt i2 v2)
  | .remove i => some (a.remove i).1
  | .removeBySlot s => some (a.remove_by_slot s).1
  | .invalidate i => some (a.invalidate i).1
  | .retain f => some (a.retain f)
  | .clear => some a.clear
  | .drain k => some (a.drainTake 0 k).1

/-- One public operation takes arena `a` to arena `b`. -/
def StepRel {T : Type} (a b : Arena T) : Prop :=
  ∃ act : Act T, a.apply act = some b

/-- Any finite sequence of public operations takes `a` to `b`. -/
def Steps {T : Type} (a b : Arena T) : Prop :=
  Relation.ReflTransGen StepRel a b

/-- One public operation that does not address slot `s` takes `a` to `b`. -/
def StepAvoiding {T : Type} (s : Nat) (a b : Arena T) : Prop :=
  ∃ act : Act T, ¬ Act.touchesSlot act s ∧ a.apply act = some b

/-- A finite sequence of public operations, none addressing slot `s`. -/
def StepsAvoiding {T : Type} (s : Nat) (a b : Arena T) : Prop :=
  Relation.ReflTransGen (StepAvoiding s) a b

/-- The arena states reachable from the empty arena by public operations. -/
inductive Reachable {T : Type} : Arena T → Prop where
  | new : Reachable (Arena.new T)
  | step {a b : Arena T} (act : Act T) : Reachable a → a.apply act = some b → Reachable b

/-- The generation currently stored at slot `s`, whether occupied or
empty; `none` when the slot does not exist. -/
def slotGen {T : Type} (a : Arena T) (s : Nat) : Option Generation :=
  (a.storage[s]?).map Entry.gen

/-- The free list, spelled out: the slots visited from a head pointer,
each an empty entry whose `next_free` continues the chain, ending at
`none`. -/
def FreeChain {T : Type} (st : List (Entry T)) : Option FreePointer → List Nat → Prop
  | none, [] => True
  | none, _ :: _ => False
  | some _, [] => False
  | some p, s :: rest =>
    p.slot = s ∧ ∃ em : EmptyEntry, st[s]? = some (.empty em) ∧
      FreeChain st em.next_free rest

/-- The arena representation invariant: the live count equals the number
of occupied entries, and the free list from `first_free` is a finite,
duplicate-free chain of empty slots. -/
def Inv {T : Type} (a : Arena T) : Prop :=
  a.len = countOccupied a.storage ∧
  ∃ fl : List Nat, fl.Nodup ∧ FreeChain a.storage a.first_free fl

/-- A slot reached by following the free list transitively from the head,
as the claim states it: the head's slot, and the slot of any `next_free`
found at a reached empty slot. -/
inductive FreeReach {T : Type} (a : Arena T) : Nat → Prop where
  | head (p : FreePointer) : a.first_free = some p → FreeReach a p.slot
  | step (s : Nat) (em : EmptyEntry) (p : FreePointer) : FreeReach a s →
      a.storage[s]? = some (.empty em) → em.next_free = some p → FreeReach a p.slot

/-! ## Claim C8: bit-packing round-trip -/

/-- Packing arithmetic: with the slot below `2^32`, the shifted-or of
`to_bits` is plain positional arithmetic. -/
theorem to_bits_eq_arith (i : Index) (hslot : i.slot < u32Size) :
    i.to_bits = u32Size * Generation.to_u32 i.generation + i.slot := by
  have h2 : u32Size = 2 ^ 32 := by norm_num [u32Size]
  unfold Index.to_bits
  rw [Nat.shiftLeft_eq, Nat.mul_comm, h2]
  exact (Nat.mul_add_lt_is_or (h2 ▸ hslot) _).symm

/-- C8: `to_bits` packs the generation into the high 32 bits and the slot
into the low 32 bits, and `from_bits` recovers any index whose fields are
in the 32-bit ranges the arena produces (slot below `2^32`, generation
strictly positive and below `2^32`). -/
theorem from_bits_to_bits (i : Index)
    (hgpos : 0 < i.generation) (hglt : i.generation < u32Size)
    (hslot : i.slot < u32Size) :
    i.to_bits / u32Size = i.generation ∧
    i.to_bits % u32Size = i.slot ∧
    Index.from_bits i.to_bits = some i := by
  have harith := to_bits_eq_arith i hslot
  have hval : Generation.to_u32 i.generation = i.generation := rfl
  rw [hval] at harith
  have hdiv : i.to_bits / u32Size = i.generation := by
    rw [harith]
    simp only [u32Size] at *
    omega
  have hmod : i.to_bits % u32Size = i.slot := by
    rw [harith]
    simp only [u32Size] at *
    omega
  refine ⟨hdiv, hmod, ?_⟩
  unfold Index.from_bits
  have hshift : i.to_bits >>> 32 = i.to_bits / u32Size := by
    rw [Nat.shiftRight_eq_div_pow]
    norm_num [u32Size]
  rw [hshift, hdiv, hmod]
  have hg32 : i.generation % u32Size = i.generation := Nat.mod_eq_of_lt hglt
  rw [hg32]
  unfold Generation.from_u32
  have hne : ¬ (i.generation = 0) := Nat.pos_iff_ne_zero.mp hgpos
  simp only [hne, if_false]

/-- C8 witness: the round-trip at the concrete index with slot `7`,
generation `3` (a value the arena can produce). -/
theorem from_bits_to_bits_witness :
    0 < (3 : Generation) ∧ (3 : Generation) < u32Size ∧ (7 : Nat) < u32Size ∧
    Index.from_bits (Index.to_bits ⟨7, 3⟩) = some ⟨7, 3⟩ := by
  refine ⟨by decide, by decide, by decide, ?_⟩
  exact (from_bits_to_bits ⟨7, 3⟩ (by decide) (by decide) (by decide)).2.2

/-! ## Claim C9: zero-generation decode rejection -/

/-- C9: decoding any 64-bit value whose high 32 bits are all zero fails
(the `Generation::from_u32` panic, `none` here). -/
theorem from_bits_zero_generation (bits : Nat) (_hbits : bits < u64Size)
    (hzero : bits >>> 32 = 0) :
    Index.from_bits bits = none := by
  unfold Index.from_bits
  rw [hzero]
  have h0 : (0 : Nat) % u32Size = 0 := Nat.zero_mod _
  rw [h0]
  rfl

/-- C9 witness: decoding `0x00000000DEADBEEF` fails. -/
theorem from_bits_zero_generation_witness :
    (0xDEADBEEF : Nat) < u64Size ∧ (0xDEADBEEF : Nat) >>> 32 = 0 ∧
    Index.from_bits 0xDEADBEEF = none := by
  refine ⟨by decide, by decide, ?_⟩
  exact from_bits_zero_generation 0xDEADBEEF (by decide) (by decide)

/-! ## Basic lemmas about the operations -/

/-- An indexed lookup that finds an element puts the index in range. -/
theorem lt_of_getElem?_some {α : Type _} {l : List α} {i : Nat} {x : α}
    (h : l[i]? = some x) : i < l.length := by
  rcases List.getElem?_eq_some_iff.mp h with ⟨hlt, _⟩
  exact hlt

/-- `FreePointer.from_slot` and `FreePointer.slot` cancel. -/
theorem FreePointer.slot_from_slot (s : Nat) : (FreePointer.from_slot s).slot = s := rfl

/-- A storage list holding an occupied entry has a positive occupied count. -/
theorem countOccupied_pos {T : Type} {l : List (Entry T)} {s : Nat} {oc : OccupiedEntry T}
    (h : l[s]? = some (.occupied oc)) : 0 < countOccupied l := by
  induction l generalizing s with
  | nil => simp at h
  | cons e rest ih =>
    cases s with
    | zero =>
      simp only [List.getElem?_cons_zero, Option.some_inj] at h
      subst h
      simp [countOccupied]
    | succ s =>
      simp only [List.getElem?_cons_succ] at h
      cases e with
      | occupied oc' => simp [countOccupied]
      | empty em => simpa [countOccupied] using ih h

/-- `get` succeeds exactly on an occupied entry carrying the index's
generation. -/
theorem get_eq_some_iff {T : Type} {a : Arena T} {i : Index} {v : T} :
    a.get i = some v ↔ a.storage[i.slot]? = some (.occupied ⟨i.generation, v⟩) := by
  unfold Arena.get
  rcases h : a.storage[i.slot]? with _ | e
  · simp
  · cases e with
    | occupied oc =>
      by_cases hg : oc.generation = i.generation
      · simp only [hg, if_pos rfl]
        constructor
        · rintro h2
          injection h2 with h2
          subst h2
          cases oc
          simp_all
        · rintro h2
          injection h2 with h2
          cases h2
          rfl
      · simp only [if_neg hg]
        constructor
        · rintro ⟨⟩
        · rintro h2
          injection h2 with h2
          cases h2
          simp at hg
    | empty em =>
      simp

/-- `get_mut` resolves exactly like `get`. -/
theorem get_mut_eq_get {T : Type} (a : Arena T) (i : Index) : a.get_mut i = a.get i := rfl

/-- `contains` agrees with `get` succeeding. -/
theorem contains_iff_get_isSome {T : Type} (a : Arena T) (i : Index) :
    a.contains i = true ↔ (a.get i).isSome := by
  unfold Arena.contains Arena.get
  rcases h : a.storage[i.slot]? with _ | e
  · simp
  · cases e with
    | occupied oc =>
      by_cases hg : oc.generation = i.generation
      · simp [hg]
      · simp [hg]
    | empty em => simp

/-- An index whose slot holds a different generation (or no entry at all)
resolves to nothing. -/
theorem get_none_of_gen_ne {T : Type} {a : Arena T} {i : Index}
    (h : ∀ e, a.storage[i.slot]? = some e → Entry.gen e ≠ i.generation) :
    a.get i = none ∧ a.contains i = false := by
  unfold Arena.get Arena.contains
  rcases he : a.storage[i.slot]? with _ | e
  · simp
  · cases e with
    | occupied oc =>
      have := h _ he
      simp only [Entry.gen] at this
      simp [this]
    | empty em => simp

/-- Equation for `remove` at a valid index. -/
theorem remove_occ_eq {T : Type} {a : Arena T} {i : Index} {oc : OccupiedEntry T}
    (hoc : a.storage[i.slot]? = some (.occupied oc)) (hg : oc.generation = i.generation) :
    a.remove i = (⟨a.storage.set i.slot (.empty ⟨i.generation, a.first_free⟩),
      a.len - 1, some (FreePointer.from_slot i.slot)⟩, some oc.value) := by
  unfold Arena.remove
  rw [hoc]
  simp only []
  rw [if_pos hg, hg]

/-- Equation for `remove_by_slot` at an occupied slot. -/
theorem remove_by_slot_occ_eq {T : Type} {a : Arena T} {s : Nat} {oc : OccupiedEntry T}
    (hoc : a.storage[s]? = some (.occupied oc)) :
    a.remove_by_slot s = (⟨a.storage.set s (.empty ⟨oc.generation, a.first_free⟩),
      a.len - 1, some (FreePointer.from_slot s)⟩, some (⟨s, oc.generation⟩, oc.value)) := by
  unfold Arena.remove_by_slot
  rw [hoc]

/-- `remove_by_slot` on a nonexistent slot is a no-op. -/
theorem remove_by_slot_nolookup {T : Type} {a : Arena T} {s : Nat}
    (h : a.storage[s]? = none) : a.remove_by_slot s = (a, none) := by
  unfold Arena.remove_by_slot
  rw [h]

/-- `remove_by_slot` on an empty slot is a no-op. -/
theorem remove_by_slot_empty {T : Type} {a : Arena T} {s : Nat} {em : EmptyEntry}
    (h : a.storage[s]? = some (.empty em)) : a.remove_by_slot s = (a, none) := by
  unfold Arena.remove_by_slot
  rw [h]

/-- Equation for `invalidate` at a valid index. -/
theorem invalidate_occ_eq {T : Type} {a : Arena T} {i : Index} {oc : OccupiedEntry T}
    (hoc : a.storage[i.slot]? = some (.occupied oc)) (hg : oc.generation = i.generation) :
    a.invalidate i = (⟨a.storage.set i.slot
        (.occupied ⟨Generation.next i.generation, oc.value⟩), a.len, a.first_free⟩,
      some ⟨i.slot, Generation.next i.generation⟩) := by
  unfold Arena.invalidate
  rw [hoc]
  simp only []
  rw [if_pos hg, hg]

/-- `invalidate` at an index it does not contain is a no-op. -/
theorem invalidate_not_valid {T : Type} {a : Arena T} {i : Index}
    (h : a.contains i = false) : a.invalidate i = (a, none) := by
  unfold Arena.contains at h
  unfold Arena.invalidate
  rcases hoc : a.storage[i.slot]? with _ | e
  · rfl
  · rw [hoc] at h
    cases e with
    | occupied oc =>
      simp only [] at h
      simp only []
      rw [if_neg (by simpa using h)]
    | empty em => rfl

/-- Case analysis of `writeAt`: it is a no-op unless the index is valid,
in which case it rewrites only the value of that entry. -/
theorem writeAt_cases {T : Type} (a : Arena T) (i : Index) (v : T) :
    a.writeAt i v = a ∨
    ∃ oc : OccupiedEntry T, a.storage[i.slot]? = some (.occupied oc) ∧
      oc.generation = i.generation ∧
      a.writeAt i v =
        ⟨a.storage.set i.slot (.occupied ⟨i.generation, v⟩), a.len, a.first_free⟩ := by
  unfold Arena.writeAt
  rcases hoc : a.storage[i.slot]? with _ | e
  · left
    rfl
  · cases e with
    | occupied oc =>
      by_cases hg : oc.generation = i.generation
      · right
        refine ⟨oc, rfl, hg, ?_⟩
        simp only []
        rw [if_pos hg, hg]
      · left
        simp only []
        rw [if_neg hg]
    | empty em =>
      left
      rfl

/-- Case analysis of a successful `insert`: the length guard held, the live
count grew by one, and either the free-list head was reused (its stored
`next_free` becoming the new head, its generation advanced by one step) or
a brand-new slot was appended at the first generation. -/
theorem insert_spec {T : Type} {a : Arena T} {v : T} {a' : Arena T} {i : Index}
    (h : a.insert v = some (a', i)) :
    a.len + 1 < u32Size ∧ a'.len = a.len + 1 ∧
    ((∃ p em, a.first_free = some p ∧ i.slot = p.slot ∧
        a.storage[p.slot]? = some (.empty em) ∧
        i.generation = Generation.next em.generation ∧
        a'.storage = a.storage.set p.slot (.occupied ⟨i.generation, v⟩) ∧
        a'.first_free = em.next_free) ∨
     (a.first_free = none ∧ a.storage.length < u32Size ∧ i.slot = a.storage.length ∧
        i.generation = Generation.first ∧
        a'.storage = a.storage ++ [.occupied ⟨i.generation, v⟩] ∧
        a'.first_free = none)) := by
  unfold Arena.insert at h
  by_cases hlen : a.len + 1 < u32Size
  case neg =>
    rw [if_neg hlen] at h
    cases h
  rw [if_pos hlen] at h
  refine ⟨hlen, ?_⟩
  rcases hff : a.first_free with _ | fp <;> rw [hff] at h <;> simp only [] at h
  · by_cases hstor : a.storage.length < u32Size
    · rw [if_pos hstor] at h
      injection h with h
      injection h with h1 h2
      subst h1
      subst h2
      exact ⟨rfl, Or.inr ⟨rfl, hstor, rfl, rfl, rfl, rfl⟩⟩
    · rw [if_neg hstor] at h
      cases h
  · rcases hget : a.storage[fp.slot]? with _ | entry <;> rw [hget] at h <;>
      simp only [] at h
    · cases h
    · rcases hem : entry.get_empty with _ | em <;> rw [hem] at h <;>
        simp only [] at h
      · cases h
      · injection h with h
        injection h with h1 h2
        subst h1
        subst h2
        have hentry : entry = .empty em := by
          cases entry with
          | occupied oc => simp [Entry.get_empty] at hem
          | empty em' =>
            simp only [Entry.get_empty, Option.some_inj] at hem
            rw [hem]
        rw [hentry] at hget
        exact ⟨rfl, Or.inl ⟨fp, em, rfl, rfl, hget, rfl, rfl, rfl⟩⟩

/-- After a successful `insert`, the returned index addresses the freshly
written occupied entry. -/
theorem insert_entry_new {T : Type} {a : Arena T} {v : T} {a' : Arena T} {i : Index}
    (h : a.insert v = some (a', i)) :
    a'.storage[i.slot]? = some (.occupied ⟨i.generation, v⟩) := by
  rcases insert_spec h with ⟨-, -, hcase | hcase⟩
  · rcases hcase with ⟨p, em, -, hslot, hget, -, hstor, -⟩
    rw [hstor, hslot]
    exact List.getElem?_set_self (lt_of_getElem?_some hget)
  · rcases hcase with ⟨-, -, hslot, -, hstor, -⟩
    rw [hstor, hslot]
    exact List.getElem?_concat_length _ _

/-- A successful `insert` leaves every other slot's entry unchanged. -/
theorem insert_frame {T : Type} {a : Arena T} {v : T} {a' : Arena T} {i : Index}
    (h : a.insert v = some (a', i)) :
    ∀ s, s ≠ i.slot → a'.storage[s]? = a.storage[s]? := by
  intro s hs
  rcases insert_spec h with ⟨-, -, hcase | hcase⟩
  · rcases hcase with ⟨p, em, -, hslot, -, -, hstor, -⟩
    rw [hstor]
    exact List.getElem?_set_ne (by rw [← hslot]; exact fun hh => hs hh.symm)
  · rcases hcase with ⟨-, -, hslot, -, hstor, -⟩
    rw [hstor]
    rcases Nat.lt_or_ge s a.storage.length with hlt | hge
    · exact List.getElem?_append_left hlt
    · have hgt : a.storage.length < s := by omega
      rw [List.getElem?_eq_none, List.getElem?_eq_none]
      · exact hge
      · simpa using hgt

/-- The slot an `insert` fills held no occupied entry beforehand. -/
theorem insert_slot_not_occupied {T : Type} {a : Arena T} {v : T} {a' : Arena T} {i : Index}
    (h : a.insert v = some (a', i)) :
    ∀ oc : OccupiedEntry T, a.storage[i.slot]? ≠ some (.occupied oc) := by
  intro oc hoc
  rcases insert_spec h with ⟨-, -, hcase | hcase⟩
  · rcases hcase with ⟨p, em, -, hslot, hget, -, -, -⟩
    rw [hslot] at hoc
    rw [hoc] at hget
    injection hget with hget
    cases hget
  · rcases hcase with ⟨-, -, hslot, -, -, -⟩
    rw [hslot] at hoc
    have := lt_of_getElem?_some hoc
    exact absurd this (by simp)

/-- A value retrievable before an `insert` is retrievable unchanged after
it, and its index is distinct from the fresh one. -/
theorem insert_preserves_get {T : Type} {a : Arena T} {v : T} {a' : Arena T} {i : Index}
    (h : a.insert v = some (a', i)) :
    ∀ j w, a.get j = some w → a'.get j = some w ∧ j ≠ i := by
  intro j w hj
  have hocc := get_eq_some_iff.mp hj
  have hslot : j.slot ≠ i.slot := by
    intro hEq
    exact insert_slot_not_occupied h _ (hEq ▸ hocc)
  refine ⟨get_eq_some_iff.mpr ?_, fun hji => hslot (by rw [hji])⟩
  rw [insert_frame h _ hslot]
  exact hocc

/-! ## Claim C10: insert frame property -/

/-- C10: a successful `insert` touches only the returned slot (the reused
free-list head or a newly appended slot), the live count, and the
free-list head; all other entries are unchanged, every index valid before
is valid after with the same value, and is distinct from the new index. -/
theorem insert_frame_property {T : Type} (a : Arena T) (v : T) (a' : Arena T) (i : Index)
    (h : a.insert v = some (a', i)) :
    a'.len = a.len + 1 ∧
    (∀ s, s ≠ i.slot → a'.storage[s]? = a.storage[s]?) ∧
    ((∃ p, a.first_free = some p ∧ i.slot = p.slot ∧
        a'.storage.length = a.storage.length) ∨
     (a.first_free = none ∧ i.slot = a.storage.length ∧
        a'.storage.length = a.storage.length + 1)) ∧
    (∀ j w, a.get j = some w → a'.get j = some w ∧ j ≠ i) := by
  rcases insert_spec h with ⟨-, hlen, hcase⟩
  refine ⟨hlen, insert_frame h, ?_, insert_preserves_get h⟩
  rcases hcase with ⟨p, em, hff, hslot, -, -, hstor, -⟩ | ⟨hff, -, hslot, -, hstor, -⟩
  · exact Or.inl ⟨p, hff, hslot, by rw [hstor]; simp⟩
  · exact Or.inr ⟨hff, hslot, by rw [hstor]; simp⟩

/-- C10 witness: inserting into a one-element arena with an empty free
list appends a fresh slot and leaves the existing element intact. -/
theorem insert_frame_property_witness :
    (Arena.insert ⟨[.occupied ⟨1, 10⟩], 1, none⟩ (20 : Nat) =
      some (⟨[.occupied ⟨1, 10⟩, .occupied ⟨1, 20⟩], 2, none⟩, ⟨1, 1⟩)) ∧
    (Arena.get ⟨[.occupied ⟨1, 10⟩, .occupied ⟨1, 20⟩], 2, none⟩ ⟨0, 1⟩ = some 10 ∧
      (⟨0, 1⟩ : Index) ≠ ⟨1, 1⟩) := by
  refine ⟨by decide, ?_⟩
  exact (insert_frame_property ⟨[.occupied ⟨1, 10⟩], 1, none⟩ 20
    ⟨[.occupied ⟨1, 10⟩, .occupied ⟨1, 20⟩], 2, none⟩ ⟨1, 1⟩ (by decide)).2.2.2 ⟨0, 1⟩ 10
    (by decide)

/-! ## Claim C4: remove semantics -/

/-- C4: `remove` returns the stored value exactly when the slot holds an
occupied entry with the index's generation; on success it writes an empty
entry with the same (un-bumped) generation, pushes the slot onto the
free-list head, and decrements the live count; on failure the arena is
returned unchanged. -/
theorem remove_spec {T : Type} (a : Arena T) (i : Index) :
    ((∃ v, (a.remove i).2 = some v) ↔
      ∃ oc : OccupiedEntry T, a.storage[i.slot]? = some (.occupied oc) ∧
        oc.generation = i.generation) ∧
    (∀ oc : OccupiedEntry T, a.storage[i.slot]? = some (.occupied oc) →
      oc.generation = i.generation →
      a.remove i = (⟨a.storage.set i.slot (.empty ⟨i.generation, a.first_free⟩),
        a.len - 1, some (FreePointer.from_slot i.slot)⟩, some oc.value)) ∧
    (a.len = countOccupied a.storage → ((a.remove i).2).isSome →
      (a.remove i).1.len + 1 = a.len) ∧
    ((a.remove i).2 = none → (a.remove i).1 = a) := by
  have hmain : ∀ oc : OccupiedEntry T, a.storage[i.slot]? = some (.occupied oc) →
      oc.generation = i.generation →
      a.remove i = (⟨a.storage.set i.slot (.empty ⟨i.generation, a.first_free⟩),
        a.len - 1, some (FreePointer.from_slot i.slot)⟩, some oc.value) :=
    fun _ hoc hg => remove_occ_eq hoc hg
  have hchar : (∃ v, (a.remove i).2 = some v) ↔
      ∃ oc : OccupiedEntry T, a.storage[i.slot]? = some (.occupied oc) ∧
        oc.generation = i.generation := by
    constructor
    · rintro ⟨v, hv⟩
      unfold Arena.remove at hv
      rcases hoc : a.storage[i.slot]? with _ | e
      · rw [hoc] at hv
        simp at hv
      · cases e with
        | occupied oc =>
          by_cases hg : oc.generation = i.generation
          · exact ⟨oc, rfl, hg⟩
          · rw [hoc] at hv
            simp only [] at hv
            rw [if_neg hg] at hv
            simp at hv
        | empty em =>
          rw [hoc] at hv
          simp at hv
    · rintro ⟨oc, hoc, hg⟩
      exact ⟨oc.value, by rw [hmain oc hoc hg]⟩
  refine ⟨hchar, hmain, ?_, ?_⟩
  · intro hInv hsome
    rcases hchar.mp (Option.isSome_iff_exists.mp hsome) with ⟨oc, hoc, hg⟩
    rw [hmain oc hoc hg]
    have hpos : 0 < countOccupied a.storage := countOccupied_pos hoc
    simp only
    omega
  · intro hnone
    unfold Arena.remove at hnone ⊢
    rcases hoc : a.storage[i.slot]? with _ | e
    · rfl
    · cases e with
      | occupied oc =>
        by_cases hg : oc.generation = i.generation
        · rw [hoc] at hnone
          simp only [] at hnone
          rw [if_pos hg] at hnone
          simp at hnone
        · simp only []
          rw [if_neg hg]
      | empty em => rfl

/-- C4 witness: removing the live index of a two-element arena empties its
slot, pushes it on the free list, and decrements the count; removing a
stale index leaves the arena unchanged. -/
theorem remove_spec_witness :
    (Arena.remove ⟨[.occupied ⟨1, 10⟩, .occupied ⟨1, 20⟩], 2, none⟩ (⟨0, 1⟩ : Index) =
      (⟨[.empty ⟨1, none⟩, .occupied ⟨1, 20⟩], 1, some ⟨1⟩⟩, some 10)) ∧
    ((Arena.remove ⟨[.occupied ⟨1, 10⟩, .occupied ⟨1, 20⟩], 2, none⟩ (⟨0, 7⟩ : Index)).1 =
      ⟨[.occupied ⟨1, 10⟩, .occupied ⟨1, 20⟩], 2, none⟩) := by
  constructor
  · have h := (remove_spec (⟨[.occupied ⟨1, 10⟩, .occupied ⟨1, 20⟩], 2, none⟩ : Arena Nat)
      ⟨0, 1⟩).2.1 ⟨1, 10⟩ (by decide) (by decide)
    exact h
  · have h := (remove_spec (⟨[.occupied ⟨1, 10⟩, .occupied ⟨1, 20⟩], 2, none⟩ : Arena Nat)
      ⟨0, 7⟩).2.2.2 (by decide)
    exact h

/-! ## Claim C5: get2_mut safety -/

/-- C5: `get2_mut` fails fatally exactly on two identical indices;
otherwise each side resolves exactly like a standalone `get_mut`, two
present results always address distinct slots, and of two indices sharing
a slot with different generations at most one resolves. -/
theorem get2_mut_spec {T : Type} (a : Arena T) (i1 i2 : Index) :
    (a.get2_mut i1 i2 = none ↔ i1 = i2) ∧
    (i1 ≠ i2 → a.get2_mut i1 i2 = some (a.get_mut i1, a.get_mut i2)) ∧
    (∀ r1 r2, a.get2_mut i1 i2 = some (r1, r2) → r1.isSome → r2.isSome →
      i1.slot ≠ i2.slot) ∧
    (i1.slot = i2.slot → i1.generation ≠ i2.generation →
      a.get_mut i1 = none ∨ a.get_mut i2 = none) := by
  have hne : ∀ h : i1 ≠ i2, a.get2_mut i1 i2 = some (a.get_mut i1, a.get_mut i2) := by
    intro h
    unfold Arena.get2_mut
    rw [if_neg h]
  refine ⟨?_, hne, ?_, ?_⟩
  · constructor
    · intro h
      by_contra hne2
      rw [hne hne2] at h
      cases h
    · intro h
      unfold Arena.get2_mut
      rw [if_pos h]
  · intro r1 r2 hsome h1 h2
    have hneq : i1 ≠ i2 := by
      intro hEq
      unfold Arena.get2_mut at hsome
      rw [if_pos hEq] at hsome
      cases hsome
    rw [hne hneq] at hsome
    injection hsome with hsome
    injection hsome with hr1 hr2
    intro hslot
    rcases Option.isSome_iff_exists.mp (hr1 ▸ h1) with ⟨v1, hv1⟩
    rcases Option.isSome_iff_exists.mp (hr2 ▸ h2) with ⟨v2, hv2⟩
    rw [get_mut_eq_get] at hv1 hv2
    have e1 := get_eq_some_iff.mp hv1
    have e2 := get_eq_some_iff.mp hv2
    rw [hslot, e2] at e1
    injection e1 with e1
    injection e1 with e1
    apply hneq
    cases i1
    cases i2
    simp only at hslot
    injection e1 with eg ev
    simp_all
  · intro hslot hgen
    rw [get_mut_eq_get, get_mut_eq_get]
    rcases hoc : a.storage[i1.slot]? with _ | e
    · left
      simp [Arena.get, hoc]
    · cases e with
      | occupied oc =>
        by_cases hg : oc.generation = i1.generation
        · right
          have hoc2 : a.storage[i2.slot]? = some (.occupied oc) := by
            rw [← hslot]
            exact hoc
          simp only [Arena.get, hoc2]
          rw [if_neg (by rw [hg]; exact hgen)]
        · left
          simp only [Arena.get, hoc]
          rw [if_neg hg]
      | empty em =>
        left
        simp [Arena.get, hoc]

/-- C5 witness: with one live and one stale index on the same slot, the
call fails only on identical indices, and the stale side resolves to
nothing. -/
theorem get2_mut_spec_witness :
    (Arena.get2_mut ⟨[.occupied ⟨2, 10⟩], 1, none⟩ (⟨0, 2⟩ : Index) ⟨0, 2⟩ = none) ∧
    (Arena.get2_mut ⟨[.occupied ⟨2, 10⟩], 1, none⟩ (⟨0, 2⟩ : Index) ⟨0, 1⟩ =
      some (some 10, none)) ∧
    (Arena.get_mut ⟨[.occupied ⟨2, 10⟩], 1, none⟩ (⟨0, 2⟩ : Index) = none ∨
      Arena.get_mut ⟨[.occupied ⟨2, 10⟩], 1, none⟩ (⟨0, 1⟩ : Index) = none) := by
  have h := get2_mut_spec (⟨[.occupied ⟨2, 10⟩], 1, none⟩ : Arena Nat) ⟨0, 2⟩ ⟨0, 1⟩
  have h0 := get2_mut_spec (⟨[.occupied ⟨2, 10⟩], 1, none⟩ : Arena Nat) ⟨0, 2⟩ ⟨0, 2⟩
  refine ⟨h0.1.mpr rfl, ?_, h.2.2.2 rfl (by decide)⟩
  have h2 := h.2.1 (by decide)
  rw [h2]
  decide

/-! ## Claim C3: LIFO free-slot recycling -/

/-- C3: removal pushes the freed slot to the free-list front (its
`next_free` becoming the old head); insertion with a non-empty free list
pops the head, advancing its generation by one step, and its stored
`next_free` becomes the new head; insertion with an empty free list
appends a brand-new slot at the first generation.  In the scenario
insert A, insert B, remove B, insert C: C reuses B's slot with the next
generation, A still resolves to its value, and B's index resolves to
nothing. -/
theorem lifo_recycling {T : Type} (a : Arena T) :
    (∀ i : Index, ∀ oc : OccupiedEntry T,
      a.storage[i.slot]? = some (.occupied oc) → oc.generation = i.generation →
      (a.remove i).1.first_free = some (FreePointer.from_slot i.slot) ∧
      (a.remove i).1.storage[i.slot]? = some (.empty ⟨i.generation, a.first_free⟩)) ∧
    (∀ v a' i p, a.first_free = some p → a.insert v = some (a', i) →
      ∃ em : EmptyEntry, a.storage[p.slot]? = some (.empty em) ∧
        i = ⟨p.slot, Generation.next em.generation⟩ ∧
        a'.first_free = em.next_free ∧
        i.generation = em.generation + 1) ∧
    (∀ v a' i, a.first_free = none → a.insert v = some (a', i) →
      i = ⟨a.storage.length, Generation.first⟩ ∧
      a'.storage = a.storage ++ [.occupied ⟨Generation.first, v⟩]) ∧
    (∀ vA vB vC a1 a2 a3 a4 iA iB iC rB,
      a.insert vA = some (a1, iA) → a1.insert vB = some (a2, iB) →
      a2.remove iB = (a3, rB) → a3.insert vC = some (a4, iC) →
      rB = some vB ∧ iC.slot = iB.slot ∧ iC.generation = Generation.next iB.generation ∧
      a4.get iA = some vA ∧ a4.get iB = none ∧ a4.get iC = some vC) := by
  refine ⟨?_, ?_, ?_, ?_⟩
  · intro i oc hoc hg
    have hrem := remove_occ_eq hoc hg
    rw [hrem]
    refine ⟨rfl, ?_⟩
    exact List.getElem?_set_self (lt_of_getElem?_some hoc)
  · intro v a' i p hff hins
    rcases insert_spec hins with ⟨-, -, hcase | hcase⟩
    · rcases hcase with ⟨p', em, hff', hslot, hget, hgen, -, hnext⟩
      rw [hff] at hff'
      injection hff' with hff'
      subst hff'
      refine ⟨em, hget, ?_, hnext, hgen⟩
      cases i
      simp only at hslot hgen
      rw [hslot, hgen]
    · rcases hcase with ⟨hff', -⟩
      rw [hff] at hff'
      cases hff'
  · intro v a' i hff hins
    rcases insert_spec hins with ⟨-, -, hcase | hcase⟩
    · rcases hcase with ⟨p', em, hff', -⟩
      rw [hff] at hff'
      cases hff'
    · rcases hcase with ⟨-, -, hslot, hgen, hstor, -⟩
      constructor
      · cases i
        simp only at hslot hgen
        rw [hslot, hgen]
      · rw [hstor, hgen]
  · intro vA vB vC a1 a2 a3 a4 iA iB iC rB h1 h2 h3 h4
    -- the index minted by each insert addresses its value
    have hA1 : a1.storage[iA.slot]? = some (.occupied ⟨iA.generation, vA⟩) :=
      insert_entry_new h1
    have hB2 : a2.storage[iB.slot]? = some (.occupied ⟨iB.generation, vB⟩) :=
      insert_entry_new h2
    -- the two inserted slots are distinct
    have hslotAB : iA.slot ≠ iB.slot := by
      intro hEq
      exact insert_slot_not_occupied h2 ⟨iA.generation, vA⟩ (hEq ▸ hA1)
    have hA2 : a2.storage[iA.slot]? = some (.occupied ⟨iA.generation, vA⟩) := by
      rw [insert_frame h2 _ hslotAB]
      exact hA1
    -- removing B succeeds and pushes B's slot onto the free list
    have hrem := remove_occ_eq hB2 rfl
    have hcomb := hrem.symm.trans h3
    injection hcomb with hA3eq hrBeq
    have hrB : rB = some vB := hrBeq.symm
    have hstor3 : a3.storage =
        a2.storage.set iB.slot (.empty ⟨iB.generation, a2.first_free⟩) := by
      rw [← hA3eq]
    have hff3 : a3.first_free = some (FreePointer.from_slot iB.slot) := by
      rw [← hA3eq]
    -- inserting C pops B's freed slot
    rcases insert_spec h4 with ⟨-, -, hcase | hcase⟩
    swap
    · rcases hcase with ⟨hff', -⟩
      rw [hff3] at hff'
      cases hff'
    rcases hcase with ⟨p, em, hff', hslotC, hget, hgenC, hstor4, -⟩
    rw [hff3] at hff'
    injection hff' with hff'
    subst hff'
    rw [FreePointer.slot_from_slot] at hslotC hget hstor4
    have hlt : iB.slot < a2.storage.length := lt_of_getElem?_some hB2
    have hget3 : a3.storage[iB.slot]? =
        some (.empty ⟨iB.generation, a2.first_free⟩) := by
      rw [hstor3]
      exact List.getElem?_set_self (by simpa using hlt)
    rw [hget3] at hget
    injection hget with hget
    injection hget with hget
    subst hget
    refine ⟨hrB, hslotC, by rw [hgenC], ?_, ?_, ?_⟩
    · -- A survives the removal and the reinsertion
      have hA3 : a3.storage[iA.slot]? =
          some (.occupied ⟨iA.generation, vA⟩) := by
        rw [hstor3, List.getElem?_set_ne (fun hh => hslotAB hh.symm)]
        exact hA2
      have hA4 : a4.storage[iA.slot]? = some (.occupied ⟨iA.generation, vA⟩) := by
        rw [insert_frame h4 _ (by rw [hslotC]; exact hslotAB)]
        exact hA3
      exact get_eq_some_iff.mpr hA4
    · -- B's index is stale: its slot now carries the next generation
      have hC4 : a4.storage[iC.slot]? = some (.occupied ⟨iC.generation, vC⟩) :=
        insert_entry_new h4
      rw [hslotC] at hC4
      refine (get_none_of_gen_ne ?_).1
      intro e he
      rw [hC4] at he
      injection he with he
      subst he
      simp only [Entry.gen]
      rw [hgenC]
      exact Nat.succ_ne_self iB.generation
    · exact get_eq_some_iff.mpr (insert_entry_new h4)

/-- C3 witness: the scenario run concretely from the empty arena with
values 100, 200, 300: C reuses B's slot 1 at generation 2, A is intact,
and B's index is stale. -/
theorem lifo_recycling_witness :
    ((Arena.new Nat).insert 100 = some (⟨[.occupied ⟨1, 100⟩], 1, none⟩, ⟨0, 1⟩)) ∧
    (Arena.insert ⟨[.occupied ⟨1, 100⟩], 1, none⟩ 200 =
      some (⟨[.occupied ⟨1, 100⟩, .occupied ⟨1, 200⟩], 2, none⟩, ⟨1, 1⟩)) ∧
    (Arena.remove ⟨[.occupied ⟨1, 100⟩, .occupied ⟨1, 200⟩], 2, none⟩ (⟨1, 1⟩ : Index) =
      (⟨[.occupied ⟨1, 100⟩, .empty ⟨1, none⟩], 1, some ⟨2⟩⟩, some 200)) ∧
    (Arena.insert ⟨[.occupied ⟨1, 100⟩, .empty ⟨1, none⟩], 1, some ⟨2⟩⟩ 300 =
      some (⟨[.occupied ⟨1, 100⟩, .occupied ⟨2, 300⟩], 2, none⟩, ⟨1, 2⟩)) ∧
    ((1 : Nat) = 1 ∧ (2 : Generation) = Generation.next 1 ∧
      Arena.get ⟨[.occupied ⟨1, 100⟩, .occupied ⟨2, 300⟩], 2, none⟩ (⟨0, 1⟩ : Index) =
        some 100 ∧
      Arena.get ⟨[.occupied ⟨1, 100⟩, .occupied ⟨2, 300⟩], 2, none⟩ (⟨1, 1⟩ : Index) =
        none ∧
      Arena.get ⟨[.occupied ⟨1, 100⟩, .occupied ⟨2, 300⟩], 2, none⟩ (⟨1, 2⟩ : Index) =
        some 300) := by
  refine ⟨by decide, by decide, by decide, by decide, ?_⟩
  have h := (lifo_recycling (Arena.new Nat)).2.2.2 100 200 300
    ⟨[.occupied ⟨1, 100⟩], 1, none⟩
    ⟨[.occupied ⟨1, 100⟩, .occupied ⟨1, 200⟩], 2, none⟩
    ⟨[.occupied ⟨1, 100⟩, .empty ⟨1, none⟩], 1, some ⟨2⟩⟩
    ⟨[.occupied ⟨1, 100⟩, .occupied ⟨2, 300⟩], 2, none⟩
    ⟨0, 1⟩ ⟨1, 1⟩ ⟨1, 2⟩ (some 200)
    (by decide) (by decide) (by decide) (by decide)
  exact ⟨rfl, h.2.2.1, h.2.2.2.1, h.2.2.2.2.1, h.2.2.2.2.2⟩

/-! ## Slot generations never decrease -/

/-- The stored generation of any entry the lookup finds. -/
theorem slotGen_entry {T : Type} {a : Arena T} {s : Nat} {e : Entry T}
    (he : a.storage[s]? = some e) : slotGen a s = some (Entry.gen e) := by
  unfold slotGen
  rw [he]
  rfl

/-- Unfolding `slotGen` over the entry found at the slot. -/
theorem slotGen_some_iff {T : Type} {a : Arena T} {s : Nat} {g : Generation} :
    slotGen a s = some g ↔
      ∃ e : Entry T, a.storage[s]? = some e ∧ Entry.gen e = g := by
  unfold slotGen
  cases a.storage[s]? <;> simp

/-- A slot with a generation exists in storage. -/
theorem slotGen_lt_length {T : Type} {a : Arena T} {s : Nat} {g : Generation}
    (h : slotGen a s = some g) : s < a.storage.length := by
  rcases slotGen_some_iff.mp h with ⟨e, he, -⟩
  exact lt_of_getElem?_some he

/-- Overwriting one entry by another of the same stored generation leaves
every slot's generation unchanged. -/
theorem map_gen_set {T : Type} {l : List (Entry T)} {sl : Nat} {e e' : Entry T}
    (hl : l[sl]? = some e) (hg : Entry.gen e' = Entry.gen e) :
    ∀ s : Nat, ((l.set sl e')[s]?).map Entry.gen = (l[s]?).map Entry.gen := by
  intro s
  by_cases hs : sl = s
  · subst hs
    rw [List.getElem?_set_self (lt_of_getElem?_some hl), hl]
    simp [hg]
  · rw [List.getElem?_set_ne hs]

/-- Writing through `get_mut` changes no slot's generation. -/
theorem slotGen_writeAt {T : Type} (a : Arena T) (i : Index) (v : T) :
    ∀ s, slotGen (a.writeAt i v) s = slotGen a s := by
  intro s
  rcases writeAt_cases a i v with h | ⟨oc, hoc, hg, h⟩
  · rw [h]
  · rw [h]
    exact map_gen_set hoc (by simp [Entry.gen, hg]) s

/-- `remove` changes no slot's generation (the freed entry keeps its
generation). -/
theorem slotGen_remove {T : Type} (a : Arena T) (i : Index) :
    ∀ s, slotGen ((a.remove i).1) s = slotGen a s := by
  intro s
  rcases hoc : a.storage[i.slot]? with _ | e
  · have hid : a.remove i = (a, none) := by
      unfold Arena.remove
      rw [hoc]
    rw [hid]
  · cases e with
    | occupied oc =>
      by_cases hg : oc.generation = i.generation
      · rw [remove_occ_eq hoc hg]
        exact map_gen_set hoc (by simp [Entry.gen, hg]) s
      · have hid : a.remove i = (a, none) := by
          unfold Arena.remove
          rw [hoc]
          simp only []
          rw [if_neg hg]
        rw [hid]
    | empty em =>
      have hid : a.remove i = (a, none) := by
        unfold Arena.remove
        rw [hoc]
      rw [hid]

/-- `remove_by_slot` changes no slot's generation. -/
theorem slotGen_remove_by_slot {T : Type} (a : Arena T) (sl : Nat) :
    ∀ s, slotGen ((a.remove_by_slot sl).1) s = slotGen a s := by
  intro s
  rcases hoc : a.storage[sl]? with _ | e
  · rw [remove_by_slot_nolookup hoc]
  · cases e with
    | occupied oc =>
      rw [remove_by_slot_occ_eq hoc]
      exact map_gen_set hoc (by simp [Entry.gen]) s
    | empty em => rw [remove_by_slot_empty hoc]

/-- `invalidate` only ever advances a slot's generation. -/
theorem slotGen_invalidate {T : Type} (a : Arena T) (i : Index) :
    ∀ s g, slotGen a s = some g →
      ∃ g', slotGen ((a.invalidate i).1) s = some g' ∧ g ≤ g' := by
  intro s g hsg
  rcases hoc : a.storage[i.slot]? with _ | e
  · have hid : a.invalidate i = (a, none) := by
      unfold Arena.invalidate
      rw [hoc]
    rw [hid]
    exact ⟨g, hsg, Nat.le_refl g⟩
  · cases e with
    | occupied oc =>
      by_cases hg : oc.generation = i.generation
      · rw [invalidate_occ_eq hoc hg]
        by_cases hs : i.slot = s
        · subst hs
          have he := slotGen_entry hoc
          rw [hsg] at he
          injection he with he
          simp only [Entry.gen] at he
          refine ⟨Generation.next i.generation, ?_, ?_⟩
          · show ((a.storage.set i.slot
                (.occupied ⟨Generation.next i.generation, oc.value⟩))[i.slot]?).map
                Entry.gen = _
            rw [List.getElem?_set_self (lt_of_getElem?_some hoc)]
            rfl
          · rw [he, hg]
            exact Nat.le_succ i.generation
        · refine ⟨g, ?_, Nat.le_refl g⟩
          show ((a.storage.set i.slot
              (.occupied ⟨Generation.next i.generation, oc.value⟩))[s]?).map
              Entry.gen = some g
          rw [List.getElem?_set_ne hs]
          exact hsg
      · have hid : a.invalidate i = (a, none) := by
          unfold Arena.invalidate
          rw [hoc]
          simp only []
          rw [if_neg hg]
        rw [hid]
        exact ⟨g, hsg, Nat.le_refl g⟩
    | empty em =>
      have hid : a.invalidate i = (a, none) := by
        unfold Arena.invalidate
        rw [hoc]
      rw [hid]
      exact ⟨g, hsg, Nat.le_refl g⟩

/-- A successful `insert` only ever advances a slot's generation (the
reused slot steps from its carried generation to its successor; other
slots are untouched). -/
theorem slotGen_insert {T : Type} {a : Arena T} {v : T} {a' : Arena T} {i : Index}
    (h : a.insert v = some (a', i)) :
    ∀ s g, slotGen a s = some g → ∃ g', slotGen a' s = some g' ∧ g ≤ g' := by
  intro s g hsg
  rcases insert_spec h with ⟨-, -, hcase | hcase⟩
  · rcases hcase with ⟨p, em, hff, hslot, hget, hgen, hstor, -⟩
    by_cases hs : p.slot = s
    · subst hs
      have he := slotGen_entry hget
      rw [hsg] at he
      injection he with he
      simp only [Entry.gen] at he
      refine ⟨Generation.next em.generation, ?_, ?_⟩
      · show (a'.storage[p.slot]?).map Entry.gen = _
        rw [hstor, List.getElem?_set_self (lt_of_getElem?_some hget)]
        simp [Entry.gen, hgen]
      · rw [he]
        exact Nat.le_succ em.generation
    · refine ⟨g, ?_, Nat.le_refl g⟩
      show (a'.storage[s]?).map Entry.gen = some g
      rw [hstor, List.getElem?_set_ne hs]
      exact hsg
  · rcases hcase with ⟨hff, -, hslot, hgen, hstor, -⟩
    refine ⟨g, ?_, Nat.le_refl g⟩
    show (a'.storage[s]?).map Entry.gen = some g
    rw [hstor, List.getElem?_append_left (slotGen_lt_length hsg)]
    exact hsg

/-- One `retain` iteration changes no slot's generation. -/
theorem slotGen_retainStep {T : Type} (f : Index → T → Bool × T) (a : Arena T) (i : Nat) :
    ∀ s, slotGen (Arena.retainStep f a i) s = slotGen a s := by
  intro s
  unfold Arena.retainStep
  rcases hoc : a.storage[i]? with _ | e
  · rfl
  · cases e with
    | occupied oc =>
      by_cases hk : (f ⟨i, oc.generation⟩ oc.value).1
      · simp only []
        rw [if_pos hk]
        exact map_gen_set hoc (by simp [Entry.gen]) s
      · simp only []
        rw [if_neg hk]
        exact map_gen_set hoc (by simp [Entry.gen]) s
    | empty em => rfl

/-- Folding `retain` iterations changes no slot's generation. -/
theorem slotGen_foldl_retainStep {T : Type} (f : Index → T → Bool × T) (l : List Nat) :
    ∀ (b : Arena T) (s : Nat),
      slotGen (l.foldl (Arena.retainStep f) b) s = slotGen b s := by
  induction l with
  | nil =>
    intro b s
    rfl
  | cons x xs ih =>
    intro b s
    rw [List.foldl_cons, ih]
    exact slotGen_retainStep f b x s

/-- `retain` changes no slot's generation. -/
theorem slotGen_retain {T : Type} (a : Arena T) (f : Index → T → Bool × T) :
    ∀ s, slotGen (a.retain f) s = slotGen a s := by
  intro s
  exact slotGen_foldl_retainStep f _ a s

/-- A yielded drain step changes no slot's generation. -/
theorem slotGen_drainStepAux_some {T : Type} :
    ∀ {fuel : Nat} {a a' : Arena T} {slot slot' : Nat} {iv : Index × T},
      Arena.drainStepAux a slot fuel = some ((a', slot'), iv) →
      ∀ s, slotGen a' s = slotGen a s := by
  intro fuel
  induction fuel with
  | zero =>
    intro a a' slot slot' iv h
    cases h
  | succ fuel ih =>
    intro a a' slot slot' iv h s
    unfold Arena.drainStepAux at h
    rcases hrbs : a.remove_by_slot slot with ⟨a1, r⟩
    rw [hrbs] at h
    cases r with
    | none =>
      simp only [] at h
      exact ih h s
    | some iv' =>
      simp only [] at h
      injection h with h
      injection h with h1 h2
      injection h1 with h1a h1b
      subst h1a
      have hthis := slotGen_remove_by_slot a slot s
      rw [hrbs] at hthis
      exact hthis

/-- Consuming any number of drain yields changes no slot's generation. -/
theorem slotGen_drainTake {T : Type} :
    ∀ (k : Nat) (a : Arena T) (slot s : Nat),
      slotGen ((a.drainTake slot k).1) s = slotGen a s := by
  intro k
  induction k with
  | zero =>
    intro a slot s
    rfl
  | succ k ih =>
    intro a slot s
    unfold Arena.drainTake
    rcases hstep : a.drainStep slot with _ | ⟨⟨a', slot'⟩, iv⟩
    · simp only []
    · simp only []
      rcases hrest : Arena.drainTake a' slot' k with ⟨a'', slot'', ps⟩
      simp only []
      have h1 : ∀ t, slotGen a' t = slotGen a t :=
        slotGen_drainStepAux_some hstep
      have h2 := ih a' slot' s
      rw [hrest] at h2
      simp only [] at h2
      rw [h2]
      exact h1 s

/-- `clear` changes no slot's generation. -/
theorem slotGen_clear {T : Type} (a : Arena T) :
    ∀ s, slotGen a.clear s = slotGen a s := by
  intro s
  exact slotGen_drainTake _ a 0 s

/-- Any single public operation only ever advances a slot's generation. -/
theorem slotGen_apply_mono {T : Type} {a a' : Arena T} {act : Act T}
    (h : a.apply act = some a') :
    ∀ s g, slotGen a s = some g → ∃ g', slotGen a' s = some g' ∧ g ≤ g' := by
  intro s g hsg
  cases act with
  | insert v =>
    unfold Arena.apply at h
    simp only [] at h
    rcases hins : a.insert v with _ | ⟨a1, i⟩
    · rw [hins] at h
      cases h
    · rw [hins] at h
      simp only [Option.map] at h
      injection h with h
      rw [← h]
      exact slotGen_insert hins s g hsg
  | getMutWrite i v =>
    injection h with h
    rw [← h, slotGen_writeAt]
    exact ⟨g, hsg, Nat.le_refl g⟩
  | get2MutWrite i1 i2 v1 v2 =>
    unfold Arena.apply at h
    simp only [] at h
    by_cases hEq : i1 = i2
    · rw [if_pos hEq] at h
      cases h
    · rw [if_neg hEq] at h
      injection h with h
      rw [← h, slotGen_writeAt, slotGen_writeAt]
      exact ⟨g, hsg, Nat.le_refl g⟩
  | remove i =>
    injection h with h
    rw [← h, slotGen_remove]
    exact ⟨g, hsg, Nat.le_refl g⟩
  | removeBySlot s' =>
    injection h with h
    rw [← h, slotGen_remove_by_slot]
    exact ⟨g, hsg, Nat.le_refl g⟩
  | invalidate i =>
    injection h with h
    rw [← h]
    exact slotGen_invalidate a i s g hsg
  | retain f =>
    injection h with h
    rw [← h, slotGen_retain]
    exact ⟨g, hsg, Nat.le_refl g⟩
  | clear =>
    injection h with h
    rw [← h, slotGen_clear]
    exact ⟨g, hsg, Nat.le_refl g⟩
  | drain k =>
    injection h with h
    rw [← h, slotGen_drainTake]
    exact ⟨g, hsg, Nat.le_refl g⟩

/-- Across any sequence of public operations, a slot's generation never
decreases and never disappears. -/
theorem slotGen_steps_mono {T : Type} {a a' : Arena T} (h : Steps a a') :
    ∀ s g, slotGen a s = some g → ∃ g', slotGen a' s = some g' ∧ g ≤ g' := by
  induction h with
  | refl => exact fun s g hg => ⟨g, hg, Nat.le_refl g⟩
  | tail hab hbc ih =>
    intro s g hg
    rcases ih s g hg with ⟨g1, hg1, hle1⟩
    rcases hbc with ⟨act, hact⟩
    rcases slotGen_apply_mono hact s g1 hg1 with ⟨g2, hg2, hle2⟩
    exact ⟨g2, hg2, Nat.le_trans hle1 hle2⟩

/-! ## Frame lemmas: operations leave unaddressed slots alone -/

/-- `remove` either does nothing or performs its documented transition. -/
theorem remove_cases {T : Type} (a : Arena T) (i : Index) :
    a.remove i = (a, none) ∨
    ∃ oc : OccupiedEntry T, a.storage[i.slot]? = some (.occupied oc) ∧
      oc.generation = i.generation ∧
      a.remove i = (⟨a.storage.set i.slot (.empty ⟨i.generation, a.first_free⟩),
        a.len - 1, some (FreePointer.from_slot i.slot)⟩, some oc.value) := by
  rcases hoc : a.storage[i.slot]? with _ | e
  · left
    unfold Arena.remove
    rw [hoc]
  · cases e with
    | occupied oc =>
      by_cases hg : oc.generation = i.generation
      · right
        exact ⟨oc, rfl, hg, remove_occ_eq hoc hg⟩
      · left
        unfold Arena.remove
        rw [hoc]
        simp only []
        rw [if_neg hg]
    | empty em =>
      left
      unfold Arena.remove
      rw [hoc]

/-- `remove_by_slot` either does nothing or performs its transition. -/
theorem remove_by_slot_cases {T : Type} (a : Arena T) (sl : Nat) :
    a.remove_by_slot sl = (a, none) ∨
    ∃ oc : OccupiedEntry T, a.storage[sl]? = some (.occupied oc) ∧
      a.remove_by_slot sl = (⟨a.storage.set sl (.empty ⟨oc.generation, a.first_free⟩),
        a.len - 1, some (FreePointer.from_slot sl)⟩, some (⟨sl, oc.generation⟩, oc.value)) := by
  rcases hoc : a.storage[sl]? with _ | e
  · left
    exact remove_by_slot_nolookup hoc
  · cases e with
    | occupied oc =>
      right
      exact ⟨oc, rfl, remove_by_slot_occ_eq hoc⟩
    | empty em =>
      left
      exact remove_by_slot_empty hoc

/-- `invalidate` either does nothing or performs its transition. -/
theorem invalidate_cases {T : Type} (a : Arena T) (i : Index) :
    a.invalidate i = (a, none) ∨
    ∃ oc : OccupiedEntry T, a.storage[i.slot]? = some (.occupied oc) ∧
      oc.generation = i.generation ∧
      a.invalidate i = (⟨a.storage.set i.slot
          (.occupied ⟨Generation.next i.generation, oc.value⟩), a.len, a.first_free⟩,
        some ⟨i.slot, Generation.next i.generation⟩) := by
  rcases hoc : a.storage[i.slot]? with _ | e
  · left
    unfold Arena.invalidate
    rw [hoc]
  · cases e with
    | occupied oc =>
      by_cases hg : oc.generation = i.generation
      · right
        exact ⟨oc, rfl, hg, invalidate_occ_eq hoc hg⟩
      · left
        unfold Arena.invalidate
        rw [hoc]
        simp only []
        rw [if_neg hg]
    | empty em =>
      left
      unfold Arena.invalidate
      rw [hoc]

/-- Writing through `get_mut` leaves other slots' entries unchanged. -/
theorem writeAt_frame {T : Type} (a : Arena T) (i : Index) (v : T) :
    ∀ s : Nat, s ≠ i.slot → (a.writeAt i v).storage[s]? = a.storage[s]? := by
  intro s hs
  rcases writeAt_cases a i v with h | ⟨oc, hoc, hg, h⟩
  · rw [h]
  · rw [h]
    exact List.getElem?_set_ne (fun hh => hs hh.symm)

/-- `remove` leaves other slots' entries unchanged. -/
theorem remove_frame {T : Type} (a : Arena T) (i : Index) :
    ∀ s : Nat, s ≠ i.slot → ((a.remove i).1).storage[s]? = a.storage[s]? := by
  intro s hs
  rcases remove_cases a i with h | ⟨oc, hoc, hg, h⟩
  · rw [h]
  · rw [h]
    exact List.getElem?_set_ne (fun hh => hs hh.symm)

/-- `remove_by_slot` leaves other slots' entries unchanged. -/
theorem remove_by_slot_frame {T : Type} (a : Arena T) (sl : Nat) :
    ∀ s : Nat, s ≠ sl → ((a.remove_by_slot sl).1).storage[s]? = a.storage[s]? := by
  intro s hs
  rcases remove_by_slot_cases a sl with h | ⟨oc, hoc, h⟩
  · rw [h]
  · rw [h]
    exact List.getElem?_set_ne (fun hh => hs hh.symm)

/-- `invalidate` leaves other slots' entries unchanged. -/
theorem invalidate_frame {T : Type} (a : Arena T) (i : Index) :
    ∀ s : Nat, s ≠ i.slot → ((a.invalidate i).1).storage[s]? = a.storage[s]? := by
  intro s hs
  rcases invalidate_cases a i with h | ⟨oc, hoc, hg, h⟩
  · rw [h]
  · rw [h]
    exact List.getElem?_set_ne (fun hh => hs hh.symm)

/-- A public operation that does not address slot `s` leaves an occupied
entry there untouched. -/
theorem apply_preserves_occ {T : Type} {a a' : Arena T} {act : Act T} {s : Nat}
    {oc : OccupiedEntry T}
    (h : a.apply act = some a') (hnt : ¬ Act.touchesSlot act s)
    (hocc : a.storage[s]? = some (.occupied oc)) :
    a'.storage[s]? = some (.occupied oc) := by
  cases act with
  | insert v =>
    unfold Arena.apply at h
    simp only [] at h
    rcases hins : a.insert v with _ | ⟨a1, i⟩
    · rw [hins] at h
      cases h
    · rw [hins] at h
      simp only [Option.map] at h
      injection h with h
      rw [← h]
      have hs : s ≠ i.slot := fun hEq => insert_slot_not_occupied hins oc (hEq ▸ hocc)
      rw [insert_frame hins s hs]
      exact hocc
  | getMutWrite i v =>
    injection h with h
    rw [← h]
    have hs : s ≠ i.slot := fun hEq => hnt hEq.symm
    rw [writeAt_frame a i v s hs]
    exact hocc
  | get2MutWrite i1 i2 v1 v2 =>
    unfold Arena.apply at h
    simp only [] at h
    by_cases hEq : i1 = i2
    · rw [if_pos hEq] at h
      cases h
    · rw [if_neg hEq] at h
      injection h with h
      rw [← h]
      have hs1 : s ≠ i1.slot := fun hh => hnt (Or.inl hh.symm)
      have hs2 : s ≠ i2.slot := fun hh => hnt (Or.inr hh.symm)
      rw [writeAt_frame _ i2 v2 s hs2, writeAt_frame a i1 v1 s hs1]
      exact hocc
  | remove i =>
    injection h with h
    rw [← h]
    rw [remove_frame a i s (fun hh => hnt hh.symm)]
    exact hocc
  | removeBySlot s' =>
    injection h with h
    rw [← h]
    rw [remove_by_slot_frame a s' s (fun hh => hnt hh.symm)]
    exact hocc
  | invalidate i =>
    injection h with h
    rw [← h]
    rw [invalidate_frame a i s (fun hh => hnt hh.symm)]
    exact hocc
  | retain f => exact absurd trivial hnt
  | clear => exact absurd trivial hnt
  | drain k => exact absurd trivial hnt

/-- Across any sequence of public operations none of which addresses slot
`s`, an occupied entry at `s` is untouched. -/
theorem steps_avoiding_preserve {T : Type} {s : Nat} {a a' : Arena T}
    (h : StepsAvoiding s a a') {oc : OccupiedEntry T}
    (hocc : a.storage[s]? = some (.occupied oc)) :
    a'.storage[s]? = some (.occupied oc) := by
  induction h with
  | refl => exact hocc
  | tail hab hbc ih =>
    rcases hbc with ⟨act, hnt, hact⟩
    exact apply_preserves_occ hact hnt ih

/-! ## Claim C1: generation non-collision -/

/-- C1: once index `i` is removed and its slot is reused by an insertion
minting `i2` on the same slot, `i2`'s generation is strictly newer; in the
resulting arena and in every arena reachable from it by public operations,
`i` resolves to nothing and is not contained — a pre-removal handle never
aliases the later occupant — while `i2` retrieves the newly inserted value,
and keeps doing so under any operations that do not remove, invalidate or
otherwise address `i2`'s slot. -/
theorem generation_non_collision {T : Type} (b b1 c a : Arena T) (i i2 : Index)
    (v vC : T)
    (hrem : b.remove i = (b1, some v))
    (hmid : Steps b1 c)
    (hins : c.insert vC = some (a, i2))
    (hslot : i2.slot = i.slot) :
    i.generation < i2.generation ∧
    (a.get i = none ∧ a.contains i = false) ∧
    (∀ a' : Arena T, Steps a a' → a'.get i = none ∧ a'.contains i = false) ∧
    a.get i2 = some vC ∧
    (∀ a' : Arena T, StepsAvoiding i2.slot a a' → a'.get i2 = some vC) := by
  -- the removal leaves the slot empty at i's generation
  rcases remove_cases b i with hid | ⟨oc, hoc, hg, heq⟩
  · rw [hid] at hrem
    injection hrem with h1 h2
    cases h2
  rw [heq] at hrem
  injection hrem with hb1 hv
  have hsg1 : slotGen b1 i.slot = some i.generation := by
    rw [← hb1]
    show ((b.storage.set i.slot (.empty ⟨i.generation, b.first_free⟩))[i.slot]?).map
      Entry.gen = some i.generation
    rw [List.getElem?_set_self (lt_of_getElem?_some hoc)]
    rfl
  -- the slot's generation can only have advanced by the time of the reuse
  rcases slotGen_steps_mono hmid i.slot i.generation hsg1 with ⟨gc, hgc, hle⟩
  -- the insertion popped that slot, so i2's generation is strictly newer
  have hgen2 : i.generation < i2.generation := by
    rcases insert_spec hins with ⟨-, -, hcase | hcase⟩
    · rcases hcase with ⟨p, em, hff, hslot2, hget, hgen, -, -⟩
      have hps : p.slot = i.slot := by rw [← hslot2, hslot]
      rw [hps] at hget
      have hem := slotGen_entry hget
      rw [hgc] at hem
      injection hem with hem
      simp only [Entry.gen] at hem
      rw [hgen]
      exact Nat.lt_succ_of_le (hem ▸ hle)
    · rcases hcase with ⟨-, -, hslot2, -, -, -⟩
      have hlen := slotGen_lt_length hgc
      rw [← hslot, hslot2] at hlen
      exact absurd hlen (Nat.lt_irrefl _)
  -- the fresh entry sits at i's slot with i2's generation
  have hA : a.storage[i.slot]? = some (.occupied ⟨i2.generation, vC⟩) := by
    rw [← hslot]
    exact insert_entry_new hins
  have hAslot : slotGen a i.slot = some i2.generation := by
    rw [slotGen_entry hA]
    rfl
  have hstale : ∀ a' : Arena T, Steps a a' →
      a'.get i = none ∧ a'.contains i = false := by
    intro a' hsteps
    rcases slotGen_steps_mono hsteps i.slot i2.generation hAslot with ⟨g', hg', hle'⟩
    refine get_none_of_gen_ne ?_
    intro e he
    have hsg := slotGen_entry he
    rw [hg'] at hsg
    injection hsg with hthis
    rw [← hthis]
    exact Nat.ne_of_gt (Nat.lt_of_lt_of_le hgen2 hle')
  refine ⟨hgen2, hstale a Relation.ReflTransGen.refl, hstale, ?_, ?_⟩
  · exact get_eq_some_iff.mpr (hslot ▸ hA)
  · intro a' havoid
    have hocc' := steps_avoiding_preserve havoid (hslot ▸ hA)
    exact get_eq_some_iff.mpr hocc'

/-- C1 witness: remove the only element, reinsert into the same slot, and
observe the stale index resolve to nothing while the new index resolves to
the new value (the reachability hypotheses discharged by empty step
sequences). -/
theorem generation_non_collision_witness :
    (Arena.remove ⟨[.occupied ⟨1, 5⟩], 1, none⟩ (⟨0, 1⟩ : Index) =
      (⟨[.empty ⟨1, none⟩], 0, some ⟨1⟩⟩, some 5)) ∧
    (Arena.insert ⟨[.empty ⟨1, none⟩], 0, some ⟨1⟩⟩ (7 : Nat) =
      some (⟨[.occupied ⟨2, 7⟩], 1, none⟩, ⟨0, 2⟩)) ∧
    (1 : Generation) < 2 ∧
    Arena.get ⟨[.occupied ⟨2, 7⟩], 1, none⟩ (⟨0, 1⟩ : Index) = none ∧
    Arena.contains ⟨[.occupied ⟨2, 7⟩], 1, none⟩ (⟨0, 1⟩ : Index) = false ∧
    Arena.get ⟨[.occupied ⟨2, 7⟩], 1, none⟩ (⟨0, 2⟩ : Index) = some 7 := by
  refine ⟨by decide, by decide, ?_, ?_, ?_, ?_⟩ <;>
  · have h := generation_non_collision
      ⟨[.occupied ⟨1, 5⟩], 1, none⟩ ⟨[.empty ⟨1, none⟩], 0, some ⟨1⟩⟩
      ⟨[.empty ⟨1, none⟩], 0, some ⟨1⟩⟩ ⟨[.occupied ⟨2, 7⟩], 1, none⟩
      (⟨0, 1⟩ : Index) (⟨0, 2⟩ : Index) 5 7
      (by decide) Relation.ReflTransGen.refl (by decide) rfl
    first
      | exact h.1
      | exact h.2.1.1
      | exact h.2.1.2
      | exact h.2.2.2.1

/-! ## Counting occupied entries -/

/-- Vacating an occupied slot lowers the occupied count by one. -/
theorem countOccupied_set_occ_empty {T : Type} {l : List (Entry T)} {s : Nat}
    {oc : OccupiedEntry T} (em : EmptyEntry) (h : l[s]? = some (.occupied oc)) :
    countOccupied (l.set s (.empty em)) + 1 = countOccupied l := by
  induction l generalizing s with
  | nil => simp at h
  | cons e rest ih =>
    cases s with
    | zero =>
      simp only [List.getElem?_cons_zero, Option.some_inj] at h
      subst h
      simp [countOccupied]
    | succ s =>
      simp only [List.getElem?_cons_succ] at h
      cases e with
      | occupied oc' =>
        simp only [List.set_cons_succ, countOccupied]
        rw [← ih h]
      | empty em' =>
        simp only [List.set_cons_succ, countOccupied]
        exact ih h

/-- Filling an empty slot raises the occupied count by one. -/
theorem countOccupied_set_empty_occ {T : Type} {l : List (Entry T)} {s : Nat}
    {em : EmptyEntry} (oc : OccupiedEntry T) (h : l[s]? = some (.empty em)) :
    countOccupied (l.set s (.occupied oc)) = countOccupied l + 1 := by
  induction l generalizing s with
  | nil => simp at h
  | cons e rest ih =>
    cases s with
    | zero =>
      simp only [List.getElem?_cons_zero, Option.some_inj] at h
      subst h
      simp [countOccupied]
    | succ s =>
      simp only [List.getElem?_cons_succ] at h
      cases e with
      | occupied oc' =>
        simp only [List.set_cons_succ, countOccupied]
        rw [ih h]
      | empty em' =>
        simp only [List.set_cons_succ, countOccupied]
        exact ih h

/-- Rewriting an occupied slot occupied keeps the occupied count. -/
theorem countOccupied_set_occ_occ {T : Type} {l : List (Entry T)} {s : Nat}
    {oc : OccupiedEntry T} (oc' : OccupiedEntry T)
    (h : l[s]? = some (.occupied oc)) :
    countOccupied (l.set s (.occupied oc')) = countOccupied l := by
  induction l generalizing s with
  | nil => simp at h
  | cons e rest ih =>
    cases s with
    | zero =>
      simp only [List.getElem?_cons_zero, Option.some_inj] at h
      subst h
      simp [countOccupied]
    | succ s =>
      simp only [List.getElem?_cons_succ] at h
      cases e with
      | occupied oc'' =>
        simp only [List.set_cons_succ, countOccupied]
        rw [ih h]
      | empty em' =>
        simp only [List.set_cons_succ, countOccupied]
        exact ih h

/-- Appending an occupied entry raises the occupied count by one. -/
theorem countOccupied_append_occ {T : Type} (l : List (Entry T)) (oc : OccupiedEntry T) :
    countOccupied (l ++ [.occupied oc]) = countOccupied l + 1 := by
  induction l with
  | nil => simp [countOccupied]
  | cons e rest ih =>
    cases e with
    | occupied oc' =>
      simp only [List.cons_append, countOccupied, List.append_eq]
      rw [ih]
    | empty em' =>
      simp only [List.cons_append, countOccupied, List.append_eq]
      rw [ih]

/-! ## Free-chain lemmas -/

/-- Every slot on the chain is an empty entry. -/
theorem freeChain_mem_empty {T : Type} {st : List (Entry T)} :
    ∀ {ff : Option FreePointer} {fl : List Nat}, FreeChain st ff fl →
      ∀ s ∈ fl, ∃ em : EmptyEntry, st[s]? = some (.empty em) := by
  intro ff fl
  induction fl generalizing ff with
  | nil =>
    intro _ s hs
    simp at hs
  | cons x rest ih =>
    intro h s hs
    cases ff with
    | none => exact h.elim
    | some p =>
      obtain ⟨hpx, em, hx, hrest⟩ := h
      rcases List.mem_cons.mp hs with hsx | hsr
      · subst hsx
        exact ⟨em, hx⟩
      · exact ih hrest s hsr

/-- Rewriting a slot off the chain leaves the chain intact. -/
theorem freeChain_set_not_mem {T : Type} {st : List (Entry T)} {s0 : Nat} {e : Entry T} :
    ∀ {ff : Option FreePointer} {fl : List Nat}, FreeChain st ff fl → s0 ∉ fl →
      FreeChain (st.set s0 e) ff fl := by
  intro ff fl
  induction fl generalizing ff with
  | nil =>
    intro h _
    cases ff with
    | none => trivial
    | some p => exact h.elim
  | cons x rest ih =>
    intro h hn
    cases ff with
    | none => exact h.elim
    | some p =>
      obtain ⟨hpx, em, hx, hrest⟩ := h
      have hsx : s0 ≠ x := fun hh => hn (hh ▸ List.mem_cons_self x rest)
      refine ⟨hpx, em, ?_, ih hrest (fun hr => hn (List.mem_cons_of_mem _ hr))⟩
      rw [List.getElem?_set_ne hsx]
      exact hx

/-- Appending storage leaves the chain intact. -/
theorem freeChain_append {T : Type} {st l2 : List (Entry T)} :
    ∀ {ff : Option FreePointer} {fl : List Nat}, FreeChain st ff fl →
      FreeChain (st ++ l2) ff fl := by
  intro ff fl
  induction fl generalizing ff with
  | nil =>
    intro h
    cases ff with
    | none => trivial
    | some p => exact h.elim
  | cons x rest ih =>
    intro h
    cases ff with
    | none => exact h.elim
    | some p =>
      obtain ⟨hpx, em, hx, hrest⟩ := h
      refine ⟨hpx, em, ?_, ih hrest⟩
      rw [List.getElem?_append_left (lt_of_getElem?_some hx)]
      exact hx

/-- The head pointer's slot is on the chain. -/
theorem freeChain_head {T : Type} {st : List (Entry T)} {p : FreePointer} {fl : List Nat}
    (h : FreeChain st (some p) fl) : p.slot ∈ fl := by
  cases fl with
  | nil => exact h.elim
  | cons x rest =>
    obtain ⟨hpx, -⟩ := h
    rw [hpx]
    exact List.mem_cons_self x rest

/-- A chain member's `next_free` stays on the chain. -/
theorem freeChain_link {T : Type} {st : List (Entry T)} :
    ∀ {ff : Option FreePointer} {fl : List Nat}, FreeChain st ff fl →
      ∀ {s : Nat} {em : EmptyEntry} {p : FreePointer}, s ∈ fl →
        st[s]? = some (.empty em) → em.next_free = some p → p.slot ∈ fl := by
  intro ff fl
  induction fl generalizing ff with
  | nil =>
    intro _ s em p hs
    simp at hs
  | cons x rest ih =>
    intro h s em p hs hse hnext
    cases ff with
    | none => exact h.elim
    | some q =>
      obtain ⟨hqx, em0, hx, hrest⟩ := h
      rcases List.mem_cons.mp hs with hsx | hsr
      · subst hsx
        rw [hse] at hx
        injection hx with hx
        injection hx with hx
        subst hx
        rw [hnext] at hrest
        exact List.mem_cons_of_mem _ (freeChain_head hrest)
      · exact List.mem_cons_of_mem _ (ih hrest hsr hse hnext)

/-! ## The invariant is preserved by every public operation -/

/-- A slot on the chain is never occupied. -/
theorem chain_not_mem_of_occ {T : Type} {st : List (Entry T)} {ff : Option FreePointer}
    {fl : List Nat} {s : Nat} {oc : OccupiedEntry T}
    (hch : FreeChain st ff fl) (hoc : st[s]? = some (.occupied oc)) : s ∉ fl := by
  intro hmem
  rcases freeChain_mem_empty hch s hmem with ⟨em, hse⟩
  rw [hoc] at hse
  injection hse with h
  injection h

/-- `insert` preserves the representation invariant. -/
theorem Inv_insert {T : Type} {a a' : Arena T} {v : T} {i : Index}
    (hInv : Inv a) (h : a.insert v = some (a', i)) : Inv a' := by
  obtain ⟨hcnt, fl, hnd, hch⟩ := hInv
  rcases insert_spec h with ⟨-, hlen, hcase | hcase⟩
  · rcases hcase with ⟨p, em, hff, hslot, hget, hgen, hstor, hff'⟩
    rw [hff] at hch
    cases fl with
    | nil => exact hch.elim
    | cons x rest =>
      obtain ⟨hpx, em0, hx, hrest⟩ := hch
      subst hpx
      rw [hget] at hx
      injection hx with hx
      injection hx with hx
      subst hx
      constructor
      · rw [hlen, hstor, countOccupied_set_empty_occ _ hget, hcnt]
      · refine ⟨rest, (List.nodup_cons.mp hnd).2, ?_⟩
        rw [hstor, hff']
        exact freeChain_set_not_mem hrest (List.nodup_cons.mp hnd).1
  · rcases hcase with ⟨hff, -, hslot, hgen, hstor, hff'⟩
    constructor
    · rw [hlen, hstor, countOccupied_append_occ, hcnt]
    · refine ⟨fl, hnd, ?_⟩
      rw [hstor, hff']
      rw [hff] at hch
      exact freeChain_append hch

/-- `remove` preserves the representation invariant. -/
theorem Inv_remove {T : Type} (a : Arena T) (i : Index) (hInv : Inv a) :
    Inv ((a.remove i).1) := by
  rcases remove_cases a i with hid | ⟨oc, hoc, hg, heq⟩
  · rw [hid]
    exact hInv
  · rw [heq]
    obtain ⟨hcnt, fl, hnd, hch⟩ := hInv
    have hnotin : i.slot ∉ fl := chain_not_mem_of_occ hch hoc
    constructor
    · have hc := countOccupied_set_occ_empty (⟨i.generation, a.first_free⟩ : EmptyEntry) hoc
      have hpos := countOccupied_pos hoc
      simp only []
      omega
    · refine ⟨i.slot :: fl, List.nodup_cons.mpr ⟨hnotin, hnd⟩, ?_⟩
      refine ⟨FreePointer.slot_from_slot i.slot, ⟨i.generation, a.first_free⟩, ?_, ?_⟩
      · exact List.getElem?_set_self (lt_of_getElem?_some hoc)
      · exact freeChain_set_not_mem hch hnotin

/-- `remove_by_slot` preserves the representation invariant. -/
theorem Inv_remove_by_slot {T : Type} (a : Arena T) (sl : Nat) (hInv : Inv a) :
    Inv ((a.remove_by_slot sl).1) := by
  rcases remove_by_slot_cases a sl with hid | ⟨oc, hoc, heq⟩
  · rw [hid]
    exact hInv
  · rw [heq]
    obtain ⟨hcnt, fl, hnd, hch⟩ := hInv
    have hnotin : sl ∉ fl := chain_not_mem_of_occ hch hoc
    constructor
    · have hc := countOccupied_set_occ_empty (⟨oc.generation, a.first_free⟩ : EmptyEntry) hoc
      have hpos := countOccupied_pos hoc
      simp only []
      omega
    · refine ⟨sl :: fl, List.nodup_cons.mpr ⟨hnotin, hnd⟩, ?_⟩
      refine ⟨FreePointer.slot_from_slot sl, ⟨oc.generation, a.first_free⟩, ?_, ?_⟩
      · exact List.getElem?_set_self (lt_of_getElem?_some hoc)
      · exact freeChain_set_not_mem hch hnotin

/-- Writing through `get_mut` preserves the representation invariant. -/
theorem Inv_writeAt {T : Type} (a : Arena T) (i : Index) (v : T) (hInv : Inv a) :
    Inv (a.writeAt i v) := by
  rcases writeAt_cases a i v with hid | ⟨oc, hoc, hg, heq⟩
  · rw [hid]
    exact hInv
  · rw [heq]
    obtain ⟨hcnt, fl, hnd, hch⟩ := hInv
    constructor
    · rw [countOccupied_set_occ_occ _ hoc]
      exact hcnt
    · exact ⟨fl, hnd, freeChain_set_not_mem hch (chain_not_mem_of_occ hch hoc)⟩

/-- `invalidate` preserves the representation invariant. -/
theorem Inv_invalidate {T : Type} (a : Arena T) (i : Index) (hInv : Inv a) :
    Inv ((a.invalidate i).1) := by
  rcases invalidate_cases a i with hid | ⟨oc, hoc, hg, heq⟩
  · rw [hid]
    exact hInv
  · rw [heq]
    obtain ⟨hcnt, fl, hnd, hch⟩ := hInv
    constructor
    · rw [countOccupied_set_occ_occ _ hoc]
      exact hcnt
    · exact ⟨fl, hnd, freeChain_set_not_mem hch (chain_not_mem_of_occ hch hoc)⟩

/-- One `retain` iteration is a no-op, a `get_mut` write, or a
`remove_by_slot` transition. -/
theorem retainStep_eq {T : Type} (f : Index → T → Bool × T) (a : Arena T) (sl : Nat) :
    Arena.retainStep f a sl = a ∨
    (∃ oc : OccupiedEntry T, a.storage[sl]? = some (.occupied oc) ∧
      Arena.retainStep f a sl =
        a.writeAt ⟨sl, oc.generation⟩ (f ⟨sl, oc.generation⟩ oc.value).2) ∨
    (∃ oc : OccupiedEntry T, a.storage[sl]? = some (.occupied oc) ∧
      Arena.retainStep f a sl = (a.remove_by_slot sl).1) := by
  unfold Arena.retainStep
  rcases hoc : a.storage[sl]? with _ | e
  · left
    rfl
  · cases e with
    | occupied oc =>
      by_cases hk : (f ⟨sl, oc.generation⟩ oc.value).1
      · right
        left
        refine ⟨oc, rfl, ?_⟩
        simp only []
        rw [if_pos hk]
        unfold Arena.writeAt
        rw [hoc]
        simp
      · right
        right
        refine ⟨oc, rfl, ?_⟩
        simp only []
        rw [if_neg hk, remove_by_slot_occ_eq hoc]
    | empty em =>
      left
      rfl

/-- One `retain` iteration preserves the representation invariant. -/
theorem Inv_retainStep {T : Type} (f : Index → T → Bool × T) (a : Arena T) (sl : Nat)
    (hInv : Inv a) : Inv (Arena.retainStep f a sl) := by
  rcases retainStep_eq f a sl with hid | ⟨oc, hoc, heq⟩ | ⟨oc, hoc, heq⟩
  · rw [hid]
    exact hInv
  · rw [heq]
    exact Inv_writeAt a _ _ hInv
  · rw [heq]
    exact Inv_remove_by_slot a sl hInv

/-- The `retain` fold preserves the representation invariant. -/
theorem Inv_foldl_retainStep {T : Type} (f : Index → T → Bool × T) (l : List Nat) :
    ∀ a : Arena T, Inv a → Inv (l.foldl (Arena.retainStep f) a) := by
  induction l with
  | nil => exact fun a h => h
  | cons x xs ih =>
    intro a h
    rw [List.foldl_cons]
    exact ih _ (Inv_retainStep f a x h)

/-- `retain` preserves the representation invariant. -/
theorem Inv_retain {T : Type} (a : Arena T) (f : Index → T → Bool × T) (hInv : Inv a) :
    Inv (a.retain f) :=
  Inv_foldl_retainStep f _ a hInv

/-- A yielded drain step preserves the representation invariant. -/
theorem Inv_drainStepAux_some {T : Type} :
    ∀ {fuel : Nat} {a a' : Arena T} {slot slot' : Nat} {iv : Index × T},
      Arena.drainStepAux a slot fuel = some ((a', slot'), iv) → Inv a → Inv a' := by
  intro fuel
  induction fuel with
  | zero =>
    intro a a' slot slot' iv h
    cases h
  | succ fuel ih =>
    intro a a' slot slot' iv h hInv
    unfold Arena.drainStepAux at h
    rcases hrbs : a.remove_by_slot slot with ⟨a1, r⟩
    rw [hrbs] at h
    cases r with
    | none =>
      simp only [] at h
      exact ih h hInv
    | some iv' =>
      simp only [] at h
      injection h with h
      injection h with h1 h2
      injection h1 with h1a h1b
      subst h1a
      have hthis := Inv_remove_by_slot a slot hInv
      rw [hrbs] at hthis
      exact hthis

/-- Consuming drain yields preserves the representation invariant. -/
theorem Inv_drainTake {T : Type} :
    ∀ (k : Nat) (a : Arena T) (slot : Nat), Inv a → Inv ((a.drainTake slot k).1) := by
  intro k
  induction k with
  | zero =>
    intro a slot h
    exact h
  | succ k ih =>
    intro a slot hInv
    unfold Arena.drainTake
    rcases hstep : a.drainStep slot with _ | ⟨⟨a', slot'⟩, iv⟩
    · simp only []
      exact hInv
    · simp only []
      rcases hrest : Arena.drainTake a' slot' k with ⟨a'', slot'', ps⟩
      simp only []
      have h1 : Inv a' := Inv_drainStepAux_some hstep hInv
      have h2 := ih a' slot' h1
      rw [hrest] at h2
      exact h2

/-- `clear` preserves the representation invariant. -/
theorem Inv_clear {T : Type} (a : Arena T) (hInv : Inv a) : Inv a.clear :=
  Inv_drainTake _ a 0 hInv

/-- Every public operation preserves the representation invariant. -/
theorem Inv_apply {T : Type} {a a' : Arena T} {act : Act T}
    (h : a.apply act = some a') (hInv : Inv a) : Inv a' := by
  cases act with
  | insert v =>
    unfold Arena.apply at h
    simp only [] at h
    rcases hins : a.insert v with _ | ⟨a1, i⟩
    · rw [hins] at h
      cases h
    · rw [hins] at h
      simp only [Option.map] at h
      injection h with h
      rw [← h]
      exact Inv_insert hInv hins
  | getMutWrite i v =>
    injection h with h
    rw [← h]
    exact Inv_writeAt a i v hInv
  | get2MutWrite i1 i2 v1 v2 =>
    unfold Arena.apply at h
    simp only [] at h
    by_cases hEq : i1 = i2
    · rw [if_pos hEq] at h
      cases h
    · rw [if_neg hEq] at h
      injection h with h
      rw [← h]
      exact Inv_writeAt _ i2 v2 (Inv_writeAt a i1 v1 hInv)
  | remove i =>
    injection h with h
    rw [← h]
    exact Inv_remove a i hInv
  | removeBySlot s =>
    injection h with h
    rw [← h]
    exact Inv_remove_by_slot a s hInv
  | invalidate i =>
    injection h with h
    rw [← h]
    exact Inv_invalidate a i hInv
  | retain f =>
    injection h with h
    rw [← h]
    exact Inv_retain a f hInv
  | clear =>
    injection h with h
    rw [← h]
    exact Inv_clear a hInv
  | drain k =>
    injection h with h
    rw [← h]
    exact Inv_drainTake k a 0 hInv

/-- Every reachable arena satisfies the representation invariant. -/
theorem reachable_inv {T : Type} {a : Arena T} (h : Reachable a) : Inv a := by
  induction h with
  | new => exact ⟨rfl, [], List.nodup_nil, trivial⟩
  | step act hr happ ih => exact Inv_apply happ ih

/-! ## Claim C2: arena representation invariant -/

/-- C2: in every arena reachable from the empty arena by public
operations, `len` equals the number of occupied entries, and every slot
reached by following the free list from `first_free` through `next_free`
pointers holds an empty entry at a position strictly below the storage
length. -/
theorem arena_invariant {T : Type} (a : Arena T) (h : Reachable a) :
    a.len = countOccupied a.storage ∧
    ∀ s : Nat, FreeReach a s →
      (∃ em : EmptyEntry, a.storage[s]? = some (.empty em)) ∧
      s < a.storage.length := by
  obtain ⟨hcnt, fl, hnd, hch⟩ := reachable_inv h
  refine ⟨hcnt, ?_⟩
  intro s hr
  have hmem : s ∈ fl := by
    induction hr with
    | head p hp =>
      rw [hp] at hch
      exact freeChain_head hch
    | step s1 em p hr2 hse hnext ih => exact freeChain_link hch ih hse hnext
  rcases freeChain_mem_empty hch s hmem with ⟨em, hse⟩
  exact ⟨⟨em, hse⟩, lt_of_getElem?_some hse⟩

/-- C2 witness: the arena reached by inserting 5 and removing it again (a
one-entry free list) has a live count of zero occupied entries, and the
free-list head reaches slot 0, which is empty and in range. -/
theorem arena_invariant_witness :
    (⟨[.empty ⟨1, none⟩], 0, some ⟨1⟩⟩ : Arena Nat).len =
      countOccupied (⟨[.empty ⟨1, none⟩], 0, some ⟨1⟩⟩ : Arena Nat).storage ∧
    ((∃ em : EmptyEntry,
        (⟨[.empty ⟨1, none⟩], 0, some ⟨1⟩⟩ : Arena Nat).storage[(0 : Nat)]? =
          some (.empty em)) ∧
      (0 : Nat) < 1) := by
  have h1 : Reachable (⟨[.occupied ⟨1, 5⟩], 1, none⟩ : Arena Nat) :=
    Reachable.step (Act.insert 5) Reachable.new (by decide)
  have hreach : Reachable (⟨[.empty ⟨1, none⟩], 0, some ⟨1⟩⟩ : Arena Nat) :=
    Reachable.step (Act.remove ⟨0, 1⟩) h1 (by decide)
  have h := arena_invariant _ hreach
  have h2 := h.2 0 (FreeReach.head ⟨1⟩ rfl)
  exact ⟨h.1, h2.1, h2.2⟩

/-! ## Claim C7: invalidate is remove-then-reinsert -/

/-- Equation for a successful `insert` popping the free-list head. -/
theorem insert_pop_eq {T : Type} (a : Arena T) (v : T) (p : FreePointer) (em : EmptyEntry)
    (hlen : a.len + 1 < u32Size) (hff : a.first_free = some p)
    (hget : a.storage[p.slot]? = some (.empty em)) :
    a.insert v = some (⟨a.storage.set p.slot
        (.occupied ⟨Generation.next em.generation, v⟩), a.len + 1, em.next_free⟩,
      ⟨p.slot, Generation.next em.generation⟩) := by
  unfold Arena.insert
  rw [if_pos hlen, hff]
  simp only []
  rw [hget]
  simp only [Entry.get_empty]

/-- C7: on a currently valid index, `invalidate` returns exactly the arena
and index that `remove` followed by `insert` of the removed value would
produce — same slot, next generation, same storage, count and
observations — while leaving the free-list head and every other slot
untouched; on an invalid index it returns nothing and changes nothing.
The counting hypothesis is the reachable-state invariant, the length
hypothesis the `u32` live-count bound the code maintains. -/
theorem invalidate_equiv {T : Type} (a : Arena T) (i : Index)
    (hcnt : a.len = countOccupied a.storage) (hlen : a.len < u32Size) :
    (a.contains i = false → a.invalidate i = (a, none)) ∧
    (∀ oc : OccupiedEntry T, a.storage[i.slot]? = some (.occupied oc) →
      oc.generation = i.generation →
      ∃ a2 i2, ((a.remove i).1).insert oc.value = some (a2, i2) ∧
        a.invalidate i = (a2, some i2) ∧
        i2 = ⟨i.slot, Generation.next i.generation⟩ ∧
        a2.first_free = a.first_free ∧
        a2.len = a.len ∧
        (∀ s : Nat, s ≠ i.slot → a2.storage[s]? = a.storage[s]?)) := by
  refine ⟨invalidate_not_valid, ?_⟩
  intro oc hoc hg
  have hpos : 0 < a.len := by
    rw [hcnt]
    exact countOccupied_pos hoc
  have hrem := remove_occ_eq hoc hg
  have hins := insert_pop_eq
    (⟨a.storage.set i.slot (.empty ⟨i.generation, a.first_free⟩), a.len - 1,
      some (FreePointer.from_slot i.slot)⟩ : Arena T) oc.value
    (FreePointer.from_slot i.slot) ⟨i.generation, a.first_free⟩
    (by simp only [u32Size] at *; omega)
    rfl
    (by
      rw [FreePointer.slot_from_slot]
      exact List.getElem?_set_self (lt_of_getElem?_some hoc))
  refine ⟨⟨a.storage.set i.slot (.occupied ⟨Generation.next i.generation, oc.value⟩),
    a.len, a.first_free⟩, ⟨i.slot, Generation.next i.generation⟩, ?_, ?_, rfl, rfl, rfl, ?_⟩
  · rw [hrem]
    rw [hins]
    simp only [Option.some_inj, Prod.mk.injEq, Arena.mk.injEq,
      FreePointer.slot_from_slot, List.set_set, Index.mk.injEq, and_true, true_and]
    omega
  · exact invalidate_occ_eq hoc hg
  · intro s hs
    exact List.getElem?_set_ne (fun hh => hs hh.symm)

/-- C7 witness: on a one-element arena, `invalidate` of the live index
yields the same arena and index as removing and reinserting the value. -/
theorem invalidate_equiv_witness :
    (Arena.invalidate (⟨[.occupied ⟨1, 5⟩], 1, none⟩ : Arena Nat) ⟨0, 1⟩ =
      (⟨[.occupied ⟨2, 5⟩], 1, none⟩, some ⟨0, 2⟩)) ∧
    ((Arena.remove (⟨[.occupied ⟨1, 5⟩], 1, none⟩ : Arena Nat) ⟨0, 1⟩).1.insert 5 =
      some (⟨[.occupied ⟨2, 5⟩], 1, none⟩, ⟨0, 2⟩)) := by
  obtain ⟨a2, i2, hins, hinv, hi2, -, -, -⟩ :=
    (invalidate_equiv (⟨[.occupied ⟨1, 5⟩], 1, none⟩ : Arena Nat) ⟨0, 1⟩ rfl
      (by decide)).2 ⟨1, 5⟩ rfl rfl
  have hconc : Arena.invalidate (⟨[.occupied ⟨1, 5⟩], 1, none⟩ : Arena Nat) ⟨0, 1⟩ =
      (⟨[.occupied ⟨2, 5⟩], 1, none⟩, some ⟨0, 2⟩) := by decide
  have hcomb := hinv.symm.trans hconc
  injection hcomb with h1 h2
  injection h2 with h2
  subst h1
  subst h2
  exact ⟨hconc, hins⟩

/-! ## Claim C6: drain semantics -/

/-- `get` finds nothing at an empty-entry slot. -/
theorem get_none_of_empty_entry {T : Type} {a : Arena T} {i : Index} {em : EmptyEntry}
    (h : a.storage[i.slot]? = some (.empty em)) : a.get i = none := by
  unfold Arena.get
  rw [h]

/-- The occupied count never exceeds the storage length. -/
theorem countOccupied_le_length {T : Type} (l : List (Entry T)) :
    countOccupied l ≤ l.length := by
  induction l with
  | nil => exact Nat.le_refl 0
  | cons e rest ih =>
    cases e with
    | occupied oc =>
      simp only [countOccupied, List.length_cons]
      omega
    | empty em =>
      simp only [countOccupied, List.length_cons]
      omega

/-- A storage list with occupied count zero holds no occupied entry. -/
theorem no_occ_of_countOccupied_zero {T : Type} {l : List (Entry T)}
    (h : countOccupied l = 0) :
    ∀ (s : Nat) (oc : OccupiedEntry T), l[s]? ≠ some (.occupied oc) := by
  intro s oc hoc
  have := countOccupied_pos hoc
  omega

/-- What a yielded drain scan step tells us: the cursor advanced to just
past the yielded slot, the yielded pair was the occupied entry there, the
arena went through the `remove_by_slot` transition, and every slot the
scan skipped was unoccupied. -/
theorem drainStepAux_some_spec {T : Type} :
    ∀ {fuel : Nat} {a a' : Arena T} {slot slot' : Nat} {ix : Index} {v : T},
      Arena.drainStepAux a slot fuel = some ((a', slot'), (ix, v)) →
      slot ≤ ix.slot ∧ slot' = ix.slot + 1 ∧
      (∃ oc : OccupiedEntry T, a.storage[ix.slot]? = some (.occupied oc) ∧
        oc.generation = ix.generation ∧ oc.value = v) ∧
      a' = (a.remove_by_slot ix.slot).1 ∧
      (∀ t, slot ≤ t → t < ix.slot →
        ∀ oc : OccupiedEntry T, a.storage[t]? ≠ some (.occupied oc)) := by
  intro fuel
  induction fuel with
  | zero =>
    intro a a' slot slot' ix v h
    cases h
  | succ fuel ih =>
    intro a a' slot slot' ix v h
    unfold Arena.drainStepAux at h
    rcases hrbs : a.remove_by_slot slot with ⟨a1, r⟩
    rw [hrbs] at h
    cases r with
    | some iv' =>
      simp only [] at h
      injection h with h
      injection h with h1 h2
      injection h1 with h1a h1b
      subst h1a
      subst h1b
      subst h2
      rcases remove_by_slot_cases a slot with hid | ⟨oc, hoc, heq⟩
      · rw [hid] at hrbs
        injection hrbs with e1 e2
        cases e2
      · rw [heq] at hrbs
        injection hrbs with e1 e2
        injection e2 with e2
        injection e2 with e2a e2b
        subst e2a
        subst e2b
        refine ⟨Nat.le_refl _, rfl, ⟨oc, hoc, rfl, rfl⟩, ?_, ?_⟩
        · rw [heq]
          exact e1.symm
        · intro t ht1 ht2 oc' hoc'
          exact absurd ht2 (Nat.not_lt.mpr ht1)
    | none =>
      simp only [] at h
      obtain ⟨hle, hslot', hocc, ha', hmin⟩ := ih h
      refine ⟨Nat.le_trans (Nat.le_succ slot) hle, hslot', hocc, ha', ?_⟩
      intro t ht1 ht2 oc' hoc'
      rcases Nat.eq_or_lt_of_le ht1 with heq1 | hlt1
      · subst heq1
        have hcontra := remove_by_slot_occ_eq hoc'
        rw [hrbs] at hcontra
        injection hcontra with e1 e2
        cases e2
      · exact hmin t hlt1 ht2 oc' hoc'

/-- An exhausted drain scan means no occupied slot at or past the cursor
(given the scan's full fuel). -/
theorem drainStepAux_none_spec {T : Type} :
    ∀ {fuel : Nat} {a : Arena T} {slot : Nat},
      fuel = a.storage.length - slot →
      Arena.drainStepAux a slot fuel = none →
      ∀ t, slot ≤ t → ∀ oc : OccupiedEntry T,
        a.storage[t]? ≠ some (.occupied oc) := by
  intro fuel
  induction fuel with
  | zero =>
    intro a slot hfuel h t ht oc hoc
    have hlen : a.storage.length ≤ t := by omega
    rw [List.getElem?_eq_none hlen] at hoc
    cases hoc
  | succ fuel ih =>
    intro a slot hfuel h t ht oc hoc
    unfold Arena.drainStepAux at h
    rcases hrbs : a.remove_by_slot slot with ⟨a1, r⟩
    rw [hrbs] at h
    cases r with
    | some iv' => simp at h
    | none =>
      simp only [] at h
      rcases Nat.eq_or_lt_of_le ht with heq1 | hlt1
      · subst heq1
        have hcontra := remove_by_slot_occ_eq hoc
        rw [hrbs] at hcontra
        injection hcontra with e1 e2
        cases e2
      · have hfuel' : fuel = a.storage.length - (slot + 1) := by omega
        exact ih hfuel' h t hlt1 oc hoc

/-- The `drainStep` wrapper, exhausted case. -/
theorem drainStep_none_spec {T : Type} {a : Arena T} {slot : Nat}
    (h : a.drainStep slot = none) :
    ∀ t, slot ≤ t → ∀ oc : OccupiedEntry T,
      a.storage[t]? ≠ some (.occupied oc) := by
  unfold Arena.drainStep at h
  exact drainStepAux_none_spec rfl h

/-- Two indices with the same slot and generation are equal. -/
theorem index_ext {i j : Index} (h1 : i.slot = j.slot)
    (h2 : i.generation = j.generation) : i = j := by
  cases i
  cases j
  simp only [] at h1 h2
  rw [h1, h2]

/-- The drain consumption loop, characterised: storage length is
preserved, slots below the cursor are untouched, every yielded pair was a
live element removed exactly as yielded, elements not yielded survive with
their values, the occupied count drops by one per yield, the live count
tracks it, and a run that stops short of its fuel has emptied everything
at or past the cursor. -/
theorem drainTake_master {T : Type} :
    ∀ (k : Nat) (a : Arena T) (slot : Nat),
      (a.drainTake slot k).1.storage.length = a.storage.length ∧
      (∀ t, t < slot → (a.drainTake slot k).1.storage[t]? = a.storage[t]?) ∧
      (∀ p ∈ (a.drainTake slot k).2.2,
        a.get p.1 = some p.2 ∧ (a.drainTake slot k).1.get p.1 = none ∧
        slot ≤ p.1.slot) ∧
      (∀ i v, a.get i = some v → i ∉ ((a.drainTake slot k).2.2).map Prod.fst →
        (a.drainTake slot k).1.get i = some v) ∧
      (countOccupied (a.drainTake slot k).1.storage +
        (a.drainTake slot k).2.2.length = countOccupied a.storage) ∧
      (a.len = countOccupied a.storage →
        (a.drainTake slot k).1.len = countOccupied (a.drainTake slot k).1.storage) ∧
      ((a.drainTake slot k).2.2.length < k →
        ∀ t, slot ≤ t → ∀ oc : OccupiedEntry T,
          (a.drainTake slot k).1.storage[t]? ≠ some (.occupied oc)) := by
  intro k
  induction k with
  | zero =>
    intro a slot
    refine ⟨rfl, fun t _ => rfl, ?_, fun i v h _ => h, rfl, fun h => h, ?_⟩
    · intro p hp
      exact absurd hp (List.not_mem_nil p)
    · intro h
      exact absurd h (Nat.lt_irrefl 0)
  | succ k ih =>
    intro a slot
    unfold Arena.drainTake
    rcases hstep : a.drainStep slot with _ | ⟨⟨a', slot'⟩, ix, v⟩
    · refine ⟨rfl, fun t _ => rfl, ?_, fun i v h _ => h, rfl, fun h => h, ?_⟩
      · intro p hp
        exact absurd hp (List.not_mem_nil p)
      · intro _ t ht oc hc
        exact drainStep_none_spec hstep t ht oc hc
    · simp only []
      rcases hrest : Arena.drainTake a' slot' k with ⟨a'', slot'', ps⟩
      simp only []
      unfold Arena.drainStep at hstep
      obtain ⟨hle, hslot', ⟨oc, hoc, hgen, hval⟩, ha', hmin⟩ :=
        drainStepAux_some_spec hstep
      rcases oc with ⟨ocg, ocv⟩
      simp only [] at hgen hval
      subst hgen
      subst hval
      have hrbs := remove_by_slot_occ_eq hoc
      have ha'stor : a'.storage =
          a.storage.set ix.slot (.empty ⟨ix.generation, a.first_free⟩) := by
        rw [ha', hrbs]
      have ha'len : a'.len = a.len - 1 := by
        rw [ha', hrbs]
      have ih' := ih a' slot'
      rw [hrest] at ih'
      simp only [] at ih'
      obtain ⟨m1', m2', m3', m4', m5', m6', m7'⟩ := ih'
      have hset := countOccupied_set_occ_empty
        (⟨ix.generation, a.first_free⟩ : EmptyEntry) hoc
      have hpos := countOccupied_pos hoc
      have hlt := lt_of_getElem?_some hoc
      refine ⟨?_, ?_, ?_, ?_, ?_, ?_, ?_⟩
      · rw [m1', ha'stor]
        exact List.length_set _ _ _
      · intro t ht
        rw [m2' t (by omega), ha'stor,
          List.getElem?_set_ne (by omega : ix.slot ≠ t)]
      · intro p hp
        rcases List.mem_cons.mp hp with hph | hpt
        · subst hph
          refine ⟨get_eq_some_iff.mpr hoc, ?_, hle⟩
          have hA' : a'.storage[ix.slot]? =
              some (.empty ⟨ix.generation, a.first_free⟩) := by
            rw [ha'stor]
            exact List.getElem?_set_self hlt
          have hA'' : a''.storage[ix.slot]? =
              some (.empty ⟨ix.generation, a.first_free⟩) := by
            rw [m2' ix.slot (by omega)]
            exact hA'
          exact get_none_of_empty_entry hA''
        · obtain ⟨hp1, hp2, hp3⟩ := m3' p hpt
          refine ⟨?_, hp2, by omega⟩
          have hocc_p := get_eq_some_iff.mp hp1
          rw [ha'stor, List.getElem?_set_ne (by omega : ix.slot ≠ p.1.slot)] at hocc_p
          exact get_eq_some_iff.mpr hocc_p
      · intro i w hiw hnot
        simp only [List.map_cons, List.mem_cons, not_or] at hnot
        have hocc_i := get_eq_some_iff.mp hiw
        have hne : i.slot ≠ ix.slot := by
          intro hEq
          rw [hEq, hoc] at hocc_i
          injection hocc_i with e
          injection e with e
          injection e with eg ev
          exact hnot.1 (index_ext hEq eg.symm)
        have hi' : a'.get i = some w := by
          refine get_eq_some_iff.mpr ?_
          rw [ha'stor, List.getElem?_set_ne (fun hh => hne hh.symm)]
          exact hocc_i
        exact m4' i w hi' hnot.2
      · simp only [List.length_cons]
        rw [ha'stor] at m5'
        omega
      · intro hcnt
        refine m6' ?_
        rw [ha'len, ha'stor]
        omega
      · simp only [List.length_cons]
        intro hlen2 t ht oc' hc
        by_cases hts : slot' ≤ t
        · exact m7' (by omega) t hts oc' hc
        · have ht2 : t < slot' := Nat.not_le.mp hts
          rw [m2' t ht2] at hc
          by_cases hteq : t = ix.slot
          · subst hteq
            rw [ha'stor, List.getElem?_set_self hlt] at hc
            injection hc with e
            injection e
          · rw [ha'stor, List.getElem?_set_ne (fun hh => hteq hh.symm)] at hc
            exact hmin t ht (by omega) oc' hc

/-- A positive occupied count exhibits an occupied entry. -/
theorem exists_occ_of_countOccupied_pos {T : Type} {l : List (Entry T)}
    (h : 0 < countOccupied l) :
    ∃ (s : Nat) (oc : OccupiedEntry T), l[s]? = some (.occupied oc) := by
  induction l with
  | nil => simp [countOccupied] at h
  | cons e rest ih =>
    cases e with
    | occupied oc => exact ⟨0, oc, by simp⟩
    | empty em =>
      simp only [countOccupied] at h
      rcases ih h with ⟨s, oc, hs⟩
      exact ⟨s + 1, oc, by simpa using hs⟩

/-- `get` finds nothing where no occupied entry sits. -/
theorem get_none_of_not_occ {T : Type} {a : Arena T} {i : Index}
    (h : ∀ oc : OccupiedEntry T, a.storage[i.slot]? ≠ some (.occupied oc)) :
    a.get i = none := by
  unfold Arena.get
  rcases hoc : a.storage[i.slot]? with _ | e
  · rfl
  · cases e with
    | occupied oc => exact absurd hoc (h oc)
    | empty em => rfl

/-- C6: consuming up to `k` pairs from the drain of an arena (cursor `0`)
yields pairs that were live and are removed exactly as yielded, leaves
every non-yielded element retrievable by its original index, never shrinks
storage, and drops the live count by exactly the number of yields; a run
that stops short of `k` yields, or is given fuel past the storage length
(full consumption), leaves the arena empty — with `N` elements and `K < N`
consumed, exactly `N − K` elements remain.  The hypothesis is the
live-count invariant of reachable arenas. -/
theorem drain_spec {T : Type} (a : Arena T) (k : Nat)
    (hcnt : a.len = countOccupied a.storage) :
    (a.drainTake 0 k).1.storage.length = a.storage.length ∧
    (∀ p ∈ (a.drainTake 0 k).2.2,
      a.get p.1 = some p.2 ∧ (a.drainTake 0 k).1.get p.1 = none) ∧
    (∀ i v, a.get i = some v → i ∉ ((a.drainTake 0 k).2.2).map Prod.fst →
      (a.drainTake 0 k).1.get i = some v) ∧
    ((a.drainTake 0 k).2.2.length ≤ a.len ∧
      (a.drainTake 0 k).1.len = a.len - (a.drainTake 0 k).2.2.length) ∧
    ((a.drainTake 0 k).2.2.length < k →
      (a.drainTake 0 k).1.len = 0 ∧ ∀ i, (a.drainTake 0 k).1.get i = none) ∧
    (a.storage.length ≤ k →
      (a.drainTake 0 k).1.len = 0 ∧ (a.drainTake 0 k).2.2.length = a.len ∧
      ∀ i, (a.drainTake 0 k).1.get i = none) := by
  obtain ⟨m1, m2, m3, m4, m5, m6, m7⟩ := drainTake_master k a 0
  have hc6 := m6 hcnt
  refine ⟨m1, fun p hp => ⟨(m3 p hp).1, (m3 p hp).2.1⟩, m4, ⟨by omega, by omega⟩, ?_, ?_⟩
  · intro hlt
    have hcount0 : countOccupied (a.drainTake 0 k).1.storage = 0 := by
      by_contra hne
      rcases exists_occ_of_countOccupied_pos (Nat.pos_of_ne_zero hne) with ⟨s, oc, hs⟩
      exact m7 hlt s (Nat.zero_le s) oc hs
    refine ⟨by omega, ?_⟩
    intro i
    exact get_none_of_not_occ
      (fun oc hs => no_occ_of_countOccupied_zero hcount0 i.slot oc hs)
  · intro hk
    have hcl := countOccupied_le_length a.storage
    have hcount0 : countOccupied (a.drainTake 0 k).1.storage = 0 := by
      by_cases hlt : (a.drainTake 0 k).2.2.length < k
      · by_contra hne
        rcases exists_occ_of_countOccupied_pos (Nat.pos_of_ne_zero hne) with ⟨s, oc, hs⟩
        exact m7 hlt s (Nat.zero_le s) oc hs
      · have := Nat.not_lt.mp hlt
        omega
    refine ⟨by omega, by omega, ?_⟩
    intro i
    exact get_none_of_not_occ
      (fun oc hs => no_occ_of_countOccupied_zero hcount0 i.slot oc hs)

/-- C6 witness: on a two-element arena, consuming one drain pair removes
exactly the yielded element, leaves the other retrievable, keeps the
storage length, and sets the live count to one. -/
theorem drain_spec_witness :
    (Arena.drainTake (⟨[.occupied ⟨1, 10⟩, .occupied ⟨1, 20⟩], 2, none⟩ : Arena Nat) 0 1 =
      (⟨[.empty ⟨1, none⟩, .occupied ⟨1, 20⟩], 1, some ⟨1⟩⟩, 1, [(⟨0, 1⟩, 10)])) ∧
    (Arena.get ⟨[.occupied ⟨1, 10⟩, .occupied ⟨1, 20⟩], 2, none⟩ (⟨0, 1⟩ : Index) =
      some 10) ∧
    (Arena.get ⟨[.empty ⟨1, none⟩, .occupied ⟨1, 20⟩], 1, some ⟨1⟩⟩ (⟨0, 1⟩ : Index) =
      none) ∧
    (Arena.get ⟨[.empty ⟨1, none⟩, .occupied ⟨1, 20⟩], 1, some ⟨1⟩⟩ (⟨1, 1⟩ : Index) =
      some 20) ∧
    ((2 : Nat) - 1 = 1) := by
  have h := drain_spec (⟨[.occupied ⟨1, 10⟩, .occupied ⟨1, 20⟩], 2, none⟩ : Arena Nat)
    1 rfl
  have hconc : Arena.drainTake
      (⟨[.occupied ⟨1, 10⟩, .occupied ⟨1, 20⟩], 2, none⟩ : Arena Nat) 0 1 =
      (⟨[.empty ⟨1, none⟩, .occupied ⟨1, 20⟩], 1, some ⟨1⟩⟩, 1, [(⟨0, 1⟩, 10)]) := by
    decide
  have h2 := h.2.1 (⟨0, 1⟩, 10) (by rw [hconc]; exact List.mem_cons_self _ _)
  have h3 := h.2.2.1 ⟨1, 1⟩ 20 (by decide) (by rw [hconc]; decide)
  rw [hconc] at h2 h3
  exact ⟨hconc, h2.1, h2.2, h3, rfl⟩

end Thunderdome
